import Mathlib

/-
  Verification development for the ReviewSum repository
  (code/seq2seqCopyAttr/vocab.py, code/seq2seqCopyAttr/models_linear.py,
  code/memBasic/vocab.py).

  Python dictionaries are modelled as association lists with dictionary
  semantics (insert replaces an existing key, otherwise appends; pop removes
  the key).  Raw review and summary strings are modelled as their
  whitespace-token lists, so the python str.split() calls become the identity.
  Random embedding rows (np.random.normal draws) are passed in as explicit
  inputs.  Real-valued network outputs (softmax rows, attention weights, the
  sigmoid gate) enter the decoder model as rational-valued parameters, since
  the claims quantify over all values those layers can produce.
-/

namespace ReviewSum

/-! ## Association-list model of python dict -/

/-- Lookup in a python dict: first (and, with unique keys, only) binding. -/
def alookup {κ β : Type} [DecidableEq κ] (d : List (κ × β)) (k : κ) : Option β :=
  (d.find? (fun p => decide (p.1 = k))).map Prod.snd

/-- Dict assignment d[k] = v: replace in place if the key is present,
otherwise append at the end (python dict preserves insertion order). -/
def dinsert {κ β : Type} [DecidableEq κ] (d : List (κ × β)) (k : κ) (v : β) :
    List (κ × β) :=
  if (alookup d k).isSome then d.map (fun p => if p.1 = k then (k, v) else p)
  else d ++ [(k, v)]

/-- Dict removal d.pop(k): drop the binding of key k. -/
def dpop {κ β : Type} [DecidableEq κ] (d : List (κ × β)) (k : κ) : List (κ × β) :=
  d.filter (fun p => decide (p.1 ≠ k))

/-- Dict update d[k] = f(d[k]) for a present key (used for counter increments). -/
def dadjust {κ β : Type} [DecidableEq κ] (d : List (κ × β)) (k : κ) (f : β → β) :
    List (κ × β) :=
  d.map (fun p => if p.1 = k then (p.1, f p.2) else p)

/-- Keys of a dict in insertion order. -/
def dkeys {κ β : Type} (d : List (κ × β)) : List κ := d.map Prod.fst

instance {ε α : Type} [DecidableEq ε] [DecidableEq α] :
    DecidableEq (Except ε α) := fun x y =>
  match x, y with
  | .error a, .error b =>
    if h : a = b then .isTrue (h ▸ rfl)
    else .isFalse (fun hc => h (by injection hc))
  | .error _, .ok _ => .isFalse (fun hc => by injection hc)
  | .ok _, .error _ => .isFalse (fun hc => by injection hc)
  | .ok a, .ok b =>
    if h : a = b then .isTrue (h ▸ rfl)
    else .isFalse (fun hc => h (by injection hc))

/-! ## Copy-attention decoder step, models_linear.py lines 66-79

The tensors produced by the learned layers are taken as inputs:
genProb is the softmax output of the generator over the fixed vocabulary
(models_linear.py line 68), attn the text-attention weights over source
positions (line 62), and gate the sigmoid output of the gen_p linear layer
applied to context, attribute context, query and previous embedding
(line 78).  The definitions below mirror lines 69-79. -/

/-- Zero-padding of the generation distribution up to the extended vocabulary
size (models_linear.py lines 69-72): when vocabSize exceeds the fixed size,
append zeros; otherwise the distribution is left unchanged. -/
def padGen (genProb : List ℚ) (vocabSize : ℕ) : List ℚ :=
  if genProb.length < vocabSize then
    genProb ++ List.replicate (vocabSize - genProb.length) 0
  else genProb

/-- The scatter_add of attention mass into an all-zero extended-vocabulary
row (models_linear.py line 76): entry j receives the sum of attention weights
of the source positions whose extended id is j. -/
def scatterAdd (vocabSize : ℕ) (src : List ℕ) (attn : List ℚ) : List ℚ :=
  (List.range vocabSize).map
    (fun j => (((src.zip attn).filter (fun p => decide (p.1 = j))).map Prod.snd).sum)

/-- Mixed output distribution (models_linear.py line 79):
gate * generation + (1 - gate) * copy, elementwise. -/
def mixProb (gate : ℚ) (genExt copyDist : List ℚ) : List ℚ :=
  List.zipWith (fun g c => gate * g + (1 - gate) * c) genExt copyDist

/-- One decode step at the probability level (models_linear.py lines 66-80):
returns the zero-padded generation distribution, the copy distribution and
their gated mixture over the extended vocabulary. -/
def decodeStepProbs (genProb attn : List ℚ) (src : List ℕ) (gate : ℚ)
    (vocabSize : ℕ) : List ℚ × List ℚ × List ℚ :=
  let genExt := padGen genProb vocabSize
  let copyDist := scatterAdd vocabSize src attn
  (genExt, copyDist, mixProb gate genExt copyDist)

/-! ## Token-level NLL loss, models_linear.py lines 189-198

A float log-probability is modelled as Option ℚ, with none standing for the
IEEE minus infinity that the source compares against.  The python loop
raises SystemExit via exit() when the gold entry is minus infinity, and a
torch IndexError when the gold index is out of range; both are modelled as
Except errors. -/

inductive LossErr : Type
  | oobIndex : LossErr
  | infAtGold : LossErr
deriving DecidableEq

/-- Loop body of myNLLLoss.forward: walk the zipped (distribution, gold index)
pairs, skip gold index 0 (PAD), stop the run when the gold entry is minus
infinity, otherwise subtract the gold entry from the accumulator. -/
def myNLLLossGo : List (List (Option ℚ) × ℕ) → ℚ → Except LossErr ℚ
  | [], acc => .ok acc
  | (dis, idx) :: rest, acc =>
    if idx = 0 then myNLLLossGo rest acc
    else
      match dis[idx]? with
      | none => .error .oobIndex
      | some none => .error .infAtGold
      | some (some q) => myNLLLossGo rest (acc - q)

/-- myNLLLoss.forward (models_linear.py lines 189-198): negated sum of the
gold-index log probabilities over non-PAD positions, failing hard on a
minus-infinity gold entry. -/
def myNLLLoss (output : List (List (Option ℚ))) (target : List ℕ) :
    Except LossErr ℚ :=
  myNLLLossGo (output.zip target) 0

/-! ## Vocabulary, seq2seqCopyAttr/vocab.py

The args object is reduced to the fields this file reads.  Embedding rows
are lists of rationals; the np.random.normal draws are explicit inputs. -/

structure Args where
  embed_dim : ℕ
  word_min_cnt : ℕ
  sum_max_len : ℕ
  review_max_len : ℕ
  mem_size : ℕ
deriving DecidableEq, Inhabited

structure Vocab where
  args : Args
  word2id : List (String × ℕ)
  id2word : List (ℕ × String)
  word2cnt : List (String × ℕ)
  embed : List (List ℚ)
  word_num : ℕ
  fixed_num : ℕ
  user2id : List (String × ℕ)
  product2id : List (String × ℕ)
deriving DecidableEq, Inhabited

/-- Loop body of the pretrained-embedding scan in Vocab.__init__
(vocab.py lines 38-44): a key absent from word2id is appended to all four
parallel structures with frequency 0. -/
def initPreStep (pre : List (String × List ℚ)) (v : Vocab) (w : String) : Vocab :=
  if (alookup v.word2id w).isSome then v
  else
    { v with
      word2id := dinsert v.word2id w v.word_num
      id2word := dinsert v.id2word v.word_num w
      word2cnt := dinsert v.word2cnt w 0
      embed := v.embed ++ [(alookup pre w).getD []]
      word_num := v.word_num + 1 }

/-- Vocab.__init__ (vocab.py lines 11-45): reserved PAD/SOS/EOS/UNK entries
with inflated counts, four random embedding rows r0-r3, then the sorted keys
of the optional pretrained-embedding dict, and finally fixed_num = word_num. -/
def vocabInit (args : Args) (r0 r1 r2 r3 : List ℚ)
    (pre : List (String × List ℚ)) : Vocab :=
  let base : Vocab :=
    { args := args
      word2id := [("<PAD>", 0), ("<SOS>", 1), ("<EOS>", 2), ("<UNK>", 3)]
      id2word := [(0, "<PAD>"), (1, "<SOS>"), (2, "<EOS>"), (3, "<UNK>")]
      word2cnt := [("<PAD>", 10000), ("<SOS>", 10000), ("<EOS>", 10000), ("<UNK>", 10000)]
      embed := [r0, r1, r2, r3]
      word_num := 4
      fixed_num := 4
      user2id := []
      product2id := [] }
  let v := (List.insertionSort (fun a b : String => a ≤ b) (dkeys pre)).foldl
    (initPreStep pre) base
  { v with fixed_num := v.word_num }

/-- Loop body of Vocab.add_sentence (vocab.py lines 49-57): a new word is
appended to all four structures with frequency 1 and a fresh random row,
a known word only has its frequency bumped. -/
def addWord (v : Vocab) (w : String) (row : List ℚ) : Vocab :=
  if (alookup v.word2id w).isSome then
    { v with word2cnt := dadjust v.word2cnt w (· + 1) }
  else
    { v with
      word2id := dinsert v.word2id w v.word_num
      id2word := dinsert v.id2word v.word_num w
      word2cnt := dinsert v.word2cnt w 1
      embed := v.embed ++ [row]
      word_num := v.word_num + 1 }

/-- Word loop of Vocab.add_sentence; fresh supplies the random rows, one
drawn per previously unseen word. -/
def addSentenceGo (v : Vocab) : List String → List (List ℚ) → Vocab
  | [], _ => v
  | w :: ws, fresh =>
    if (alookup v.word2id w).isSome then
      addSentenceGo { v with word2cnt := dadjust v.word2cnt w (· + 1) } ws fresh
    else
      addSentenceGo (addWord v w (fresh.headD [])) ws (fresh.tail)

/-- Vocab.add_sentence (vocab.py lines 48-58): scan the words, then set
fixed_num = word_num. -/
def addSentence (v : Vocab) (sent : List String) (fresh : List (List ℚ)) : Vocab :=
  let v := addSentenceGo v sent fresh
  { v with fixed_num := v.word_num }

/-- Vocab.word_id (vocab.py lines 103-106): dict lookup with UNK (3) default. -/
def word_id (v : Vocab) (w : String) : ℕ :=
  (alookup v.word2id w).getD 3

/-- Vocab.id_word (vocab.py lines 108-110): bounds assertion, then dict
access; none models the assertion failure or a missing key. -/
def id_word (v : Vocab) (i : ℕ) : Option String :=
  if i < v.word_num then alookup v.id2word i else none

/-! ### Vocab.trim, vocab.py lines 75-101 -/

/-- Reservation scan of Vocab.trim (vocab.py lines 77-82): for each id in
range(word_num) look up its word and the frequency of the word, keeping the
(id, word, count) triples whose count reaches word_min_cnt; a missing key is
a python KeyError, modelled as none. -/
def trimKept (v : Vocab) : List ℕ → Option (List (ℕ × String × ℕ))
  | [] => some []
  | i :: is => do
    let w ← alookup v.id2word i
    let c ← alookup v.word2cnt w
    let rest ← trimKept v is
    pure (if v.args.word_min_cnt ≤ c then (i, w, c) :: rest else rest)

/-- One iteration of the rebuild loop of Vocab.trim (vocab.py lines 86-90):
assign word2id[w] = cnt, id2word[cnt] = w, word2cnt[w] = old count,
increment cnt. -/
def trimStep (acc : List (String × ℕ) × List (ℕ × String) × List (String × ℕ) × ℕ)
    (t : ℕ × String × ℕ) :
    List (String × ℕ) × List (ℕ × String) × List (String × ℕ) × ℕ :=
  (dinsert acc.1 t.2.1 acc.2.2.2, dinsert acc.2.1 acc.2.2.2 t.2.1,
    dinsert acc.2.2.1 t.2.1 t.2.2, acc.2.2.2 + 1)

/-- Rebuild loop of Vocab.trim (vocab.py lines 83-90): renumber the reserved
words densely from 0, rebuilding word2id, id2word and word2cnt by dict
assignment. -/
def trimBuild (kept : List (ℕ × String × ℕ)) :
    List (String × ℕ) × List (ℕ × String) × List (String × ℕ) × ℕ :=
  kept.foldl trimStep ([], [], [], 0)

/-- Closed form of the trim rebuild on duplicate-free input: the three
dictionaries the loop produces when every insert hits a fresh key. -/
def cleanBuild : List (ℕ × String × ℕ) → ℕ →
    List (String × ℕ) × List (ℕ × String) × List (String × ℕ)
  | [], _ => ([], [], [])
  | t :: ts, n =>
    ((t.2.1, n) :: (cleanBuild ts (n + 1)).1,
      (n, t.2.1) :: (cleanBuild ts (n + 1)).2.1,
      (t.2.1, t.2.2) :: (cleanBuild ts (n + 1)).2.2)

/-- Vocab.trim (vocab.py lines 75-101): reservation scan, dense renumbering,
embedding-row selection (a python IndexError is none), the length assertion
(line 95, failure is none), and the state update including
word_num = fixed_num = new size. -/
def trim (v : Vocab) : Option Vocab := do
  let kept ← trimKept v (List.range v.word_num)
  let r := trimBuild kept
  let emb ← (kept.map (fun t => t.1)).mapM (fun i => v.embed[i]?)
  if r.1.length = r.2.1.length ∧ r.2.1.length = r.2.2.1.length ∧
      r.2.2.1.length = emb.length then
    pure { v with
      word2id := r.1, id2word := r.2.1, word2cnt := r.2.2.1, embed := emb
      word_num := r.2.2.2, fixed_num := r.2.2.2 }
  else none

/-- Parallel-structure invariant carried by the corpus-scan operations: the
four structures have equal length, ids stay below word_num, and every
counted word is a vocabulary key. -/
def LenInv (v : Vocab) : Prop :=
  v.word2id.length = v.id2word.length ∧
  v.id2word.length = v.word2cnt.length ∧
  v.word2cnt.length = v.embed.length ∧
  (∀ q ∈ v.id2word, q.1 < v.word_num) ∧
  (∀ p ∈ v.word2cnt, p.1 ∈ dkeys v.word2id)

instance (v : Vocab) : Decidable (LenInv v) := by
  unfold LenInv; infer_instance

/-! ### Vocab.read_batch, vocab.py lines 114-190

Raw texts enter pre-tokenized, so str.split() is the identity; the final
torch.LongTensor conversions and device moves are dropped (pure reindexing). -/

structure Batch where
  reviewText : List (List String)
  summary : List (List String)
  userID : List String
  productID : List String
deriving DecidableEq, Inhabited

structure RBOut where
  src : List (List ℕ)
  trg : List (List ℕ)
  src_embed : List (List ℕ)
  trg_embed : List (List ℕ)
  src_user : List ℕ
  src_product : List ℕ
  src_mask : List (List ℕ)
  src_lens : List ℕ
  trg_lens : List ℕ
  src_text : List (List String)
  trg_text : List (List String)
deriving DecidableEq, Inhabited

/-- Sort key of vocab.py line 128: token count of the review at position k. -/
def srcKeyLen (st : List (List String)) (k : ℕ) : ℕ :=
  (st[k]?.getD []).length

/-- Index permutation of vocab.py lines 127-128: positions sorted by
descending review token count (python sort is stable, and so is insertion
sort with a non-strict order). -/
def sortIdx (st : List (List String)) (n : ℕ) : List ℕ :=
  List.insertionSort (fun a b => srcKeyLen st b ≤ srcKeyLen st a) (List.range n)

/-- One iteration of the dynamic-segment removal loop (vocab.py lines
116-119): look the id up (with the id_word bounds assertion), then pop it
from id2word and its word from word2id; a missing key is a python KeyError,
modelled as none. -/
def resetStep (v : Vocab) (i : ℕ) : Option Vocab := do
  let w ← id_word v i
  match alookup v.word2id w with
  | none => none
  | some _ =>
    pure { v with id2word := dpop v.id2word i, word2id := dpop v.word2id w }

/-- Dynamic-segment removal of vocab.py lines 116-120: pop every id in
range(fixed_num, word_num) from both directions, then reset the running
counter word_num to fixed_num. -/
def resetDyn (v : Vocab) : Option Vocab := do
  let v1 ← (List.range' v.fixed_num (v.word_num - v.fixed_num)).foldlM resetStep v
  pure { v1 with word_num := v.fixed_num }

/-- Loop body of the dynamic-segment construction (vocab.py lines 135-139):
an out-of-vocabulary source word gets the next id in both directions, with no
frequency record and no embedding row. -/
def extendWord (v : Vocab) (w : String) : Vocab :=
  if (alookup v.word2id w).isSome then v
  else
    { v with
      word2id := dinsert v.word2id w v.word_num
      id2word := dinsert v.id2word v.word_num w
      word_num := v.word_num + 1 }

/-- Dynamic-segment construction (vocab.py lines 133-139): scan every word
of every (sorted) source review. -/
def extendDyn (v : Vocab) (reviews : List (List String)) : Vocab :=
  reviews.foldl (fun v r => r.foldl extendWord v) v

/-- Extended source row (vocab.py lines 147-152): truncate to the batch max,
map through word_id, right-pad with PAD (0). -/
def mkSrcRow (v : Vocab) (maxLen : ℕ) (review : List String) : List ℕ :=
  (review.take maxLen).map (word_id v) ++
    List.replicate (maxLen - (review.take maxLen).length) 0

/-- Embedding-safe reindexing (vocab.py lines 153 and 167): dynamic-segment
ids are replaced by UNK (3). -/
def embedSafe (v : Vocab) (row : List ℕ) : List ℕ :=
  row.map (fun i => if i < v.fixed_num then i else 3)

/-- Source mask row (vocab.py line 154): ones over the real tokens, zeros
over the padding. -/
def mkMaskRow (maxLen : ℕ) (review : List String) : List ℕ :=
  List.replicate (review.take maxLen).length 1 ++
    List.replicate (maxLen - (review.take maxLen).length) 0

/-- Extended target row (vocab.py lines 156-166): append EOS, truncate to
sum_max_len, map each word through word_id with the copy-reachability
downgrade (a dynamic-segment id absent from the extended source row of the
same example becomes UNK), right-pad with PAD (0). -/
def mkTrgRow (v : Vocab) (maxLen : ℕ) (srcRow : List ℕ) (summary : List String) :
    List ℕ :=
  (((summary ++ ["<EOS>"]).take maxLen).map (fun w =>
    if v.fixed_num ≤ word_id v w ∧ ¬ word_id v w ∈ srcRow then 3
    else word_id v w))
    ++ List.replicate (maxLen - ((summary ++ ["<EOS>"]).take maxLen).length) 0

/-- Reported target length (vocab.py line 168): length of the EOS-extended,
truncated summary. -/
def trgLenOf (maxLen : ℕ) (summary : List String) : ℕ :=
  ((summary ++ ["<EOS>"]).take maxLen).length

/-- Review texts paired against summaries (vocab.py lines 123-126): python
zip stops at the shorter sequence. -/
def srcTexts (b : Batch) : List (List String) :=
  (b.reviewText.zip b.summary).map Prod.fst

def trgTexts (b : Batch) : List (List String) :=
  (b.reviewText.zip b.summary).map Prod.snd

/-- Sorted index permutation of vocab.py lines 127-128. -/
def batchIdx (b : Batch) : List ℕ :=
  sortIdx (srcTexts b) b.summary.length

/-- Reviews in descending-length order (vocab.py line 129). -/
def sortedSrc (b : Batch) : List (List String) :=
  (batchIdx b).map (fun i => (srcTexts b)[i]?.getD [])

/-- Summaries reordered alongside (vocab.py line 130). -/
def sortedTrg (b : Batch) : List (List String) :=
  (batchIdx b).map (fun i => (trgTexts b)[i]?.getD [])

/-- Tensor block of vocab.py lines 142-184 given the extended vocabulary v2
and the batch max source length. -/
def rbOut (v2 : Vocab) (b : Batch) (srcMaxLen : ℕ) : RBOut :=
  let st := sortedSrc b
  let tt := sortedTrg b
  let trgMaxLen := v2.args.sum_max_len
  let src := st.map (mkSrcRow v2 srcMaxLen)
  { src := src
    trg := tt.enum.map (fun p => mkTrgRow v2 trgMaxLen ((src[p.1]?).getD []) p.2)
    src_embed := src.map (embedSafe v2)
    trg_embed := (tt.enum.map
      (fun p => mkTrgRow v2 trgMaxLen ((src[p.1]?).getD []) p.2)).map (embedSafe v2)
    src_user := b.userID.map (fun u => (alookup v2.user2id u).getD 0)
    src_product := b.productID.map (fun p => (alookup v2.product2id p).getD 0)
    src_mask := st.map (mkMaskRow srcMaxLen)
    src_lens := st.map (fun r => (r.take srcMaxLen).length)
    trg_lens := tt.map (trgLenOf trgMaxLen)
    src_text := st
    trg_text := tt }

/-- Vocab.read_batch (vocab.py lines 114-190): dynamic-segment reset, sort by
descending review length, dynamic-segment construction, then all index
tensors; none models the python crashes (KeyError during reset, IndexError on
an empty batch). -/
def readBatch (v : Vocab) (b : Batch) : Option (Vocab × RBOut) := do
  let v1 ← resetDyn v
  let v2 := extendDyn v1 (sortedSrc b)
  match sortedSrc b with
  | [] => none
  | s0 :: _ => pure (v2, rbOut v2 b s0.length)

/-! ## Memory-variant vocabulary, memBasic/vocab.py

Only the parts that Vocab.make_tensors reads are modelled: the word2id dict
(queried through word_id) and args.  A memory entry p is modelled by the
three components the code reads: p[0] (corpus example index), p[2] (gold
relevance label) and p[-2] (the sort score). -/

structure VocabM where
  args : Args
  word2id : List (String × ℕ)
deriving DecidableEq, Inhabited

/-- Vocab.word_id (memBasic/vocab.py lines 77-80). -/
def word_idM (v : VocabM) (w : String) : ℕ :=
  (alookup v.word2id w).getD 3

structure ExampleRec where
  userID : String
  productID : String
  reviewText : List String
  summary : List String
deriving DecidableEq, Inhabited

structure MemEntry where
  exIdx : ℕ
  gold : ℚ
  score : ℚ
deriving DecidableEq, Inhabited

structure BatchM where
  reviewText : List (List String)
  summary : List (List String)
  userID : List String
  productID : List String
  product_review : List (List MemEntry)
  user_review : List (List MemEntry)
deriving DecidableEq, Inhabited

inductive MTErr : Type
  | emptyBatch : MTErr
  | memIndexOob : MTErr
  | ownershipAssert : MTErr
deriving DecidableEq

/-- One memory row: ownership flag pair, review ids, summary ids, gold label
(the four parallel lists the code appends to in lockstep). -/
structure MemRow where
  up : List ℕ
  review : List ℕ
  summ : List ℕ
  gold : ℚ
deriving DecidableEq, Inhabited

/-- Truncate-to-max, id-map, right-pad (memBasic/vocab.py lines 101-111 and
127-134 all follow this shape). -/
def padTokRow (v : VocabM) (toks : List String) (maxLen : ℕ) : List ℕ :=
  (toks.take maxLen).map (word_idM v) ++
    List.replicate (maxLen - (toks.take maxLen).length) 0

/-- Memory ranking and truncation (memBasic/vocab.py lines 118-120):
concatenate product and user memories, sort by descending score (python sort
is stable, and so is insertion sort with a non-strict order), keep the first
mem_size entries. -/
def truncMem (args : Args) (pr ur : List MemEntry) : List MemEntry :=
  (List.insertionSort (fun p q => q.score ≤ p.score) (pr ++ ur)).take args.mem_size

/-- One retained memory entry (memBasic/vocab.py lines 121-134): corpus
lookup (python IndexError is memIndexOob), the ownership assertion of line
124 (failure is ownershipAssert), then the flag pair and the padded review
and summary rows. -/
def memRowOf (v : VocabM) (train : List ExampleRec) (cu cp : String)
    (e : MemEntry) : Except MTErr MemRow :=
  match train[e.exIdx]? with
  | none => .error .memIndexOob
  | some md =>
    if md.userID = cu ∨ md.productID = cp then
      .ok { up := [if md.userID = cu then 1 else 0, if md.productID = cp then 1 else 0]
            review := padTokRow v md.reviewText v.args.review_max_len
            summ := padTokRow v md.summary v.args.sum_max_len
            gold := e.gold }
    else .error .ownershipAssert

/-- Placeholder memory row (memBasic/vocab.py lines 135-139): zero ownership
flags, zero gold label, PAD-filled review and summary. -/
def padMemRow (args : Args) : MemRow :=
  { up := [0, 0]
    review := List.replicate args.review_max_len 0
    summ := List.replicate args.sum_max_len 0
    gold := 0 }

/-- User of the current example (memBasic/vocab.py line 117). -/
def memCU (b : BatchM) (i : ℕ) : String := (b.userID[i]?).getD ""

/-- Product of the current example (memBasic/vocab.py line 117). -/
def memCP (b : BatchM) (i : ℕ) : String := (b.productID[i]?).getD ""

/-- The memory entries of example i retained after ranking and truncation
(memBasic/vocab.py lines 118-120). -/
def retained (v : VocabM) (b : BatchM) (i : ℕ) : List MemEntry :=
  truncMem v.args ((b.product_review[i]?).getD []) ((b.user_review[i]?).getD [])

/-- Memory rows of one example (memBasic/vocab.py lines 116-139): the
retained entries in score order followed by placeholder rows up to mem_size. -/
def memRowsFor (v : VocabM) (train : List ExampleRec) (b : BatchM) (i : ℕ) :
    Except MTErr (List MemRow) := do
  let rows ← (retained v b i).mapM (memRowOf v train (memCU b i) (memCP b i))
  pure (rows ++ List.replicate (v.args.mem_size - (retained v b i).length)
    (padMemRow v.args))

structure MTOut where
  src : List (List ℕ)
  trg : List (List ℕ)
  mem_up : List (List ℕ)
  mem_review : List (List ℕ)
  mem_sum : List (List ℕ)
  mem_gold : List ℚ
  src_text : List (List String)
  trg_text : List (List String)
deriving DecidableEq, Inhabited

/-- Review texts paired against summaries (memBasic/vocab.py lines 89-92). -/
def srcTextsM (b : BatchM) : List (List String) :=
  (b.reviewText.zip b.summary).map Prod.fst

def trgTextsM (b : BatchM) : List (List String) :=
  (b.reviewText.zip b.summary).map Prod.snd

/-- Sorted index permutation of memBasic/vocab.py lines 93-94. -/
def batchIdxM (b : BatchM) : List ℕ :=
  sortIdx (srcTextsM b) b.summary.length

def sortedSrcM (b : BatchM) : List (List String) :=
  (batchIdxM b).map (fun i => (srcTextsM b)[i]?.getD [])

def sortedTrgM (b : BatchM) : List (List String) :=
  (batchIdxM b).map (fun i => (trgTextsM b)[i]?.getD [])

/-- Vocab.make_tensors (memBasic/vocab.py lines 87-148): sort by descending
review length, build source and EOS-extended target rows, then one block of
mem_size memory rows per example, flattened in example order. -/
def makeTensors (v : VocabM) (b : BatchM) (train : List ExampleRec) :
    Except MTErr MTOut := do
  let st := sortedSrcM b
  let tt := sortedTrgM b
  match st with
  | [] => .error .emptyBatch
  | s0 :: _ =>
    let srcMaxLen := s0.length
    let src := st.map (fun r => padTokRow v r srcMaxLen)
    let trg := tt.map (fun s => padTokRow v (s ++ ["<EOS>"]) v.args.sum_max_len)
    let rowsL ← (batchIdxM b).mapM (memRowsFor v train b)
    let rows := rowsL.flatten
    pure
      { src := src, trg := trg
        mem_up := rows.map (fun r => r.up)
        mem_review := rows.map (fun r => r.review)
        mem_sum := rows.map (fun r => r.summ)
        mem_gold := rows.map (fun r => r.gold)
        src_text := st, trg_text := tt }

/-! ## Well-formedness of a vocabulary state

These predicates hold for every state the python class reaches through its
public operations; they are stated with bounded quantifiers so they are
decidable on concrete states. -/

/-- Structural dictionary invariant: unique keys in both directions, the two
directions are mutually inverse, and every id is below word_num. -/
def InvV (v : Vocab) : Prop :=
  (dkeys v.word2id).Nodup ∧ (dkeys v.id2word).Nodup ∧
  (∀ p ∈ v.word2id, (p.2, p.1) ∈ v.id2word) ∧
  (∀ q ∈ v.id2word, (q.2, q.1) ∈ v.word2id) ∧
  (∀ q ∈ v.id2word, q.1 < v.word_num)

instance (v : Vocab) : Decidable (InvV v) := by
  unfold InvV; infer_instance

/-- Full well-formedness used by the read_batch claims: the structural
invariant, a nonempty fixed segment containing the four reserved tokens, and
fixed_num ≤ word_num. -/
def WfCore (v : Vocab) : Prop :=
  InvV v ∧ 4 ≤ v.fixed_num ∧ v.fixed_num ≤ v.word_num ∧
  ("<PAD>", 0) ∈ v.word2id ∧ ("<SOS>", 1) ∈ v.word2id ∧
  ("<EOS>", 2) ∈ v.word2id ∧ ("<UNK>", 3) ∈ v.word2id

instance (v : Vocab) : Decidable (WfCore v) := by
  unfold WfCore; infer_instance

/-- Reserved-token frequency invariant: the four reserved tokens carry the
inflated count of at least 10000 installed by the constructor. -/
def reservedCntOk (v : Vocab) : Prop :=
  ∀ w ∈ ["<PAD>", "<SOS>", "<EOS>", "<UNK>"],
    (alookup v.word2cnt w).isSome ∧ 10000 ≤ (alookup v.word2cnt w).getD 0

instance (v : Vocab) : Decidable (reservedCntOk v) := by
  unfold reservedCntOk; infer_instance

/-! ## Concrete states used as test inputs

exVocab is the vocabulary the spec scenario builds from the single sentence
a b c with min count 1 (fixed ids PAD 0, SOS 1, EOS 2, UNK 3, a 4, b 5, c 6);
exVocabDyn is the same state carrying a leftover dynamic entry from a
previous batch. -/

def exArgs : Args :=
  { embed_dim := 0, word_min_cnt := 1, sum_max_len := 4, review_max_len := 3,
    mem_size := 2 }

def exVocab : Vocab :=
  { args := exArgs
    word2id := [("<PAD>", 0), ("<SOS>", 1), ("<EOS>", 2), ("<UNK>", 3),
      ("a", 4), ("b", 5), ("c", 6)]
    id2word := [(0, "<PAD>"), (1, "<SOS>"), (2, "<EOS>"), (3, "<UNK>"),
      (4, "a"), (5, "b"), (6, "c")]
    word2cnt := [("<PAD>", 10000), ("<SOS>", 10000), ("<EOS>", 10000),
      ("<UNK>", 10000), ("a", 1), ("b", 1), ("c", 1)]
    embed := [[], [], [], [], [], [], []]
    word_num := 7
    fixed_num := 7
    user2id := [("u", 1)]
    product2id := [("p", 1)] }

def exVocabDyn : Vocab :=
  { exVocab with
    word2id := exVocab.word2id ++ [("stale", 7)]
    id2word := exVocab.id2word ++ [(7, "stale")]
    word_num := 8 }

/-- The spec-scenario vocabulary with the minimum-count threshold raised
above the reserved tokens' stored count of 10000. -/
def exVocabHi : Vocab :=
  { exVocab with args := { exArgs with word_min_cnt := 10001 } }

def exBatch : Batch :=
  { reviewText := [["a", "b", "x"]], summary := [["x", "a", "y"]],
    userID := ["u"], productID := ["p"] }

def exRBpair : Vocab × RBOut :=
  (readBatch exVocabDyn exBatch).getD default

/-- Two-example batch with distinct review lengths, initially in ascending
order so the sort visibly reorders it. -/
def exBatch2 : Batch :=
  { reviewText := [["a"], ["b", "c", "x"]], summary := [["c"], ["x", "a"]],
    userID := ["u", "w"], productID := ["p", "q"] }

/-- Batch whose summary has exactly sum_max_len (4) tokens and contains the
literal EOS token among them. -/
def exBatchEOS : Batch :=
  { reviewText := [["a"]], summary := [["<EOS>", "b", "a", "c"]],
    userID := ["u"], productID := ["p"] }

def exVocabM : VocabM :=
  { args := exArgs, word2id := exVocab.word2id }

def exTrain : List ExampleRec :=
  [{ userID := "u", productID := "p", reviewText := ["a", "b"], summary := ["c"] },
   { userID := "u", productID := "q", reviewText := ["b"], summary := ["a", "b"] },
   { userID := "w", productID := "p", reviewText := ["c", "c"], summary := ["b"] }]

/-- Batch with three memory entries against capacity 2, all matching the
current user or product, so make_tensors succeeds after truncation. -/
def exBatchM : BatchM :=
  { reviewText := [["a", "b", "c"]], summary := [["a"]],
    userID := ["u"], productID := ["p"]
    product_review := [[{ exIdx := 2, gold := 1, score := 2 }]]
    user_review := [[{ exIdx := 1, gold := 0, score := 1 },
                     { exIdx := 0, gold := 1, score := 3 }]] }

/-- Batch whose single memory entry matches neither the current user nor the
current product, so the ownership assertion fires. -/
def exBatchMBad : BatchM :=
  { reviewText := [["a", "b"]], summary := [["c"]],
    userID := ["w2"], productID := ["q2"]
    product_review := [[{ exIdx := 0, gold := 1, score := 1 }]]
    user_review := [[]] }

/-! ## General list lemmas -/

theorem getD_map_range (f : ℕ → ℚ) (n j : ℕ) :
    ((List.range n).map f).getD j 0 = if j < n then f j else 0 := by
  rcases lt_or_ge j n with h | h
  · rw [List.getD_eq_getElem?_getD, List.getElem?_map, List.getElem?_range h]
    simp [h]
  · rw [List.getD_eq_default, if_neg (Nat.not_lt_of_ge h)]
    simpa using h

/-! ## Claim C2: decode-step mixing law -/

theorem padGen_getD_eq_zero (genProb : List ℚ) (vocabSize i : ℕ)
    (h : genProb.length ≤ i) : (padGen genProb vocabSize).getD i 0 = 0 := by
  unfold padGen
  split
  · rw [List.getD_append_right _ _ _ _ h, List.getD_eq_getElem?_getD,
      List.getElem?_replicate]
    split <;> simp
  · exact List.getD_eq_default _ _ h

theorem padGen_length (genProb : List ℚ) (vocabSize : ℕ)
    (h : genProb.length ≤ vocabSize) :
    (padGen genProb vocabSize).length = vocabSize := by
  unfold padGen
  split
  · simp
    omega
  · omega

theorem scatterAdd_length (vocabSize : ℕ) (src : List ℕ) (attn : List ℚ) :
    (scatterAdd vocabSize src attn).length = vocabSize := by
  simp [scatterAdd]

theorem scatterAdd_getD (vocabSize : ℕ) (src : List ℕ) (attn : List ℚ) (j : ℕ) :
    (scatterAdd vocabSize src attn).getD j 0 =
      if j < vocabSize then
        (((src.zip attn).filter (fun p => decide (p.1 = j))).map Prod.snd).sum
      else 0 :=
  getD_map_range _ _ _

theorem scatterAdd_getD_of_not_mem (vocabSize : ℕ) (src : List ℕ) (attn : List ℚ)
    (j : ℕ) (hj : j ∉ src) : (scatterAdd vocabSize src attn).getD j 0 = 0 := by
  rw [scatterAdd_getD]
  split
  · have hnil : (src.zip attn).filter (fun p => decide (p.1 = j)) = [] := by
      rw [List.filter_eq_nil_iff]
      intro p hp
      have h1 : p.1 ∈ src := (List.of_mem_zip hp).1
      simp only [decide_eq_true_eq]
      intro h2
      exact hj (h2 ▸ h1)
    rw [hnil]
    simp
  · rfl

theorem mixProb_getD (gate : ℚ) (g c : List ℚ) (j : ℕ)
    (hlen : g.length = c.length) :
    (mixProb gate g c).getD j 0 = gate * g.getD j 0 + (1 - gate) * c.getD j 0 := by
  unfold mixProb
  rcases lt_or_ge j g.length with h | h
  · have hc : j < c.length := hlen ▸ h
    rw [List.getD_eq_getElem?_getD, List.getD_eq_getElem?_getD,
      List.getD_eq_getElem?_getD, List.getElem?_zipWith,
      List.getElem?_eq_getElem h, List.getElem?_eq_getElem hc]
    simp
  · have hc : c.length ≤ j := hlen ▸ h
    rw [List.getD_eq_default _ _ h, List.getD_eq_default _ _ hc,
      List.getD_eq_default]
    · ring
    · rw [List.length_zipWith]
      exact le_trans (min_le_left _ _) h

/-- C2: at every decode step and for all parameter values, the generation
distribution is zero-padded past the fixed vocabulary size (probability
exactly 0 for every id at or beyond it); the copy distribution is exactly 0
at every id that does not occur in the extended source row of that example,
and at every in-range id it is the accumulated attention mass of the source
positions carrying that id; and the mixed output is
gate * generation + (1 - gate) * copy elementwise, the gate being the
sigmoid output entering as a parameter. -/
theorem c2_decode_step_mixing_law (genProb attn : List ℚ) (src : List ℕ)
    (gate : ℚ) (vocabSize : ℕ) (hfix : genProb.length ≤ vocabSize) :
    (∀ i, genProb.length ≤ i →
      (decodeStepProbs genProb attn src gate vocabSize).1.getD i 0 = 0) ∧
    (∀ j, j ∉ src →
      (decodeStepProbs genProb attn src gate vocabSize).2.1.getD j 0 = 0) ∧
    (∀ j, j < vocabSize →
      (decodeStepProbs genProb attn src gate vocabSize).2.1.getD j 0 =
        (((src.zip attn).filter (fun p => decide (p.1 = j))).map Prod.snd).sum) ∧
    (∀ j, (decodeStepProbs genProb attn src gate vocabSize).2.2.getD j 0 =
      gate * (decodeStepProbs genProb attn src gate vocabSize).1.getD j 0
        + (1 - gate) * (decodeStepProbs genProb attn src gate vocabSize).2.1.getD j 0) := by
  refine ⟨?_, ?_, ?_, ?_⟩
  · intro i hi
    exact padGen_getD_eq_zero _ _ _ hi
  · intro j hj
    exact scatterAdd_getD_of_not_mem _ _ _ _ hj
  · intro j hj
    rw [show (decodeStepProbs genProb attn src gate vocabSize).2.1
        = scatterAdd vocabSize src attn from rfl]
    rw [scatterAdd_getD, if_pos hj]
  · intro j
    exact mixProb_getD _ _ _ _
      ((padGen_length _ _ hfix).trans (scatterAdd_length _ _ _).symm)

/-- Witness for C2 at a concrete decode step. -/
theorem c2_decode_step_mixing_law_witness :
    (([(1 : ℚ)/2, 1/2] : List ℚ).length ≤ 5) ∧
    ((∀ i, ([(1 : ℚ)/2, 1/2] : List ℚ).length ≤ i →
      (decodeStepProbs [(1 : ℚ)/2, 1/2] [(1 : ℚ)/3, 2/3] [0, 4] (1/4) 5).1.getD i 0 = 0) ∧
    (∀ j, j ∉ [0, 4] →
      (decodeStepProbs [(1 : ℚ)/2, 1/2] [(1 : ℚ)/3, 2/3] [0, 4] (1/4) 5).2.1.getD j 0 = 0) ∧
    (∀ j, j < 5 →
      (decodeStepProbs [(1 : ℚ)/2, 1/2] [(1 : ℚ)/3, 2/3] [0, 4] (1/4) 5).2.1.getD j 0 =
        ((([0, 4].zip [(1 : ℚ)/3, 2/3]).filter (fun p => decide (p.1 = j))).map Prod.snd).sum) ∧
    (∀ j, (decodeStepProbs [(1 : ℚ)/2, 1/2] [(1 : ℚ)/3, 2/3] [0, 4] (1/4) 5).2.2.getD j 0 =
      (1/4) * (decodeStepProbs [(1 : ℚ)/2, 1/2] [(1 : ℚ)/3, 2/3] [0, 4] (1/4) 5).1.getD j 0
        + (1 - 1/4) * (decodeStepProbs [(1 : ℚ)/2, 1/2] [(1 : ℚ)/3, 2/3] [0, 4] (1/4) 5).2.1.getD j 0)) :=
  ⟨by decide, c2_decode_step_mixing_law [(1 : ℚ)/2, 1/2] [(1 : ℚ)/3, 2/3] [0, 4]
    (1/4) 5 (by decide)⟩

/-! ## Claim C6: loss skips padding and hard-fails on unreachable gold -/

theorem myNLLLossGo_spec (L : List (List (Option ℚ) × ℕ)) (acc : ℚ)
    (hbound : ∀ p ∈ L, p.2 ≠ 0 → p.2 < p.1.length) :
    (myNLLLossGo L acc = .error .infAtGold ↔
      ∃ p ∈ L, p.2 ≠ 0 ∧ p.1[p.2]? = some none) ∧
    ((∀ p ∈ L, p.2 ≠ 0 → p.1[p.2]? ≠ some none) →
      myNLLLossGo L acc =
        .ok (acc - ((L.filter (fun p => decide (p.2 ≠ 0))).map
          (fun p => ((p.1[p.2]?).getD none).getD 0)).sum)) := by
  induction L generalizing acc with
  | nil => simp [myNLLLossGo]
  | cons hd tl ih =>
    obtain ⟨dis, idx⟩ := hd
    by_cases hidx : idx = 0
    · subst hidx
      have h := ih acc (fun p hp => hbound p (List.mem_cons_of_mem _ hp))
      constructor
      · rw [show myNLLLossGo ((dis, 0) :: tl) acc = myNLLLossGo tl acc from rfl]
        rw [h.1]
        simp
      · intro hno
        rw [show myNLLLossGo ((dis, 0) :: tl) acc = myNLLLossGo tl acc from rfl]
        rw [h.2 (fun p hp => hno p (List.mem_cons_of_mem _ hp))]
        simp
    · have hlt : idx < dis.length := hbound (dis, idx) (List.mem_cons_self _ _) hidx
      have hv : dis[idx]? = some dis[idx] := List.getElem?_eq_getElem hlt
      cases hvv : dis[idx] with
      | none =>
        rw [hvv] at hv
        have hred : myNLLLossGo ((dis, idx) :: tl) acc = .error .infAtGold := by
          simp only [myNLLLossGo, if_neg hidx, hv]
        constructor
        · rw [hred]
          simp only [true_iff]
          exact ⟨(dis, idx), List.mem_cons_self _ _, hidx, hv⟩
        · intro hno
          exact absurd hv (hno (dis, idx) (List.mem_cons_self _ _) hidx)
      | some q =>
        rw [hvv] at hv
        have hred : myNLLLossGo ((dis, idx) :: tl) acc = myNLLLossGo tl (acc - q) := by
          simp only [myNLLLossGo, if_neg hidx, hv]
        have h := ih (acc - q) (fun p hp => hbound p (List.mem_cons_of_mem _ hp))
        constructor
        · rw [hred, h.1]
          constructor
          · rintro ⟨p, hp, h1, h2⟩
            exact ⟨p, List.mem_cons_of_mem _ hp, h1, h2⟩
          · rintro ⟨p, hp, h1, h2⟩
            rcases List.mem_cons.mp hp with rfl | hp2
            · rw [hv] at h2
              exact absurd h2 (by simp)
            · exact ⟨p, hp2, h1, h2⟩
        · intro hno
          rw [hred, h.2 (fun p hp => hno p (List.mem_cons_of_mem _ hp))]
          have hfil : ((dis, idx) :: tl).filter (fun p => decide (p.2 ≠ 0))
              = (dis, idx) :: tl.filter (fun p => decide (p.2 ≠ 0)) := by
            rw [List.filter_cons_of_pos]
            simpa using hidx
          rw [hfil]
          simp only [List.map_cons, List.sum_cons, hv]
          congr 1
          simp only [Option.getD_some]
          ring

/-- C6: myNLLLoss contributes nothing at positions whose gold index is 0
(PAD); at every other position a minus-infinity gold entry stops the run
with the hard failure instead of producing a value; and when no such entry
exists the result is the negated sum of the gold-index values over the
non-PAD positions. -/
theorem c6_loss_skips_pad_fails_on_inf (output : List (List (Option ℚ)))
    (target : List ℕ)
    (hbound : ∀ p ∈ output.zip target, p.2 ≠ 0 → p.2 < p.1.length) :
    (myNLLLoss output target = .error .infAtGold ↔
      ∃ p ∈ output.zip target, p.2 ≠ 0 ∧ p.1[p.2]? = some none) ∧
    ((∀ p ∈ output.zip target, p.2 ≠ 0 → p.1[p.2]? ≠ some none) →
      myNLLLoss output target =
        .ok (-(((output.zip target).filter (fun p => decide (p.2 ≠ 0))).map
          (fun p => ((p.1[p.2]?).getD none).getD 0)).sum)) := by
  have h := myNLLLossGo_spec (output.zip target) 0 hbound
  refine ⟨h.1, fun hno => ?_⟩
  rw [show myNLLLoss output target = myNLLLossGo (output.zip target) 0 from rfl,
    h.2 hno]
  congr 1
  ring

/-- Witness for C6 at a concrete batch of distributions: position 0 has gold
index 1 with log probability -2, position 1 is PAD-skipped although its gold
entry is minus infinity, so the loss is 2. -/
theorem c6_loss_skips_pad_fails_on_inf_witness :
    (∀ p ∈ ([[some 0, some (-2)], [none, some (-5)]] :
        List (List (Option ℚ))).zip [1, 0], p.2 ≠ 0 → p.2 < p.1.length) ∧
    ((myNLLLoss [[some 0, some (-2)], [none, some (-5)]] [1, 0] = .error .infAtGold ↔
      ∃ p ∈ ([[some 0, some (-2)], [none, some (-5)]] :
        List (List (Option ℚ))).zip [1, 0], p.2 ≠ 0 ∧ p.1[p.2]? = some none) ∧
    ((∀ p ∈ ([[some 0, some (-2)], [none, some (-5)]] :
        List (List (Option ℚ))).zip [1, 0], p.2 ≠ 0 → p.1[p.2]? ≠ some none) →
      myNLLLoss [[some 0, some (-2)], [none, some (-5)]] [1, 0] =
        .ok (-((([[some 0, some (-2)], [none, some (-5)]] :
            List (List (Option ℚ))).zip [1, 0] |>.filter
            (fun p => decide (p.2 ≠ 0))).map
          (fun p => ((p.1[p.2]?).getD none).getD 0)).sum))) :=
  ⟨by decide, c6_loss_skips_pad_fails_on_inf
    [[some 0, some (-2)], [none, some (-5)]] [1, 0] (by decide)⟩

/-! ## Association-list lemmas -/

theorem dkeys_append {κ β : Type} (d e : List (κ × β)) :
    dkeys (d ++ e) = dkeys d ++ dkeys e :=
  List.map_append _ _ _

section Dict

variable {κ β : Type} [DecidableEq κ]

theorem mem_of_alookup_eq_some {d : List (κ × β)} {k : κ} {v : β}
    (h : alookup d k = some v) : (k, v) ∈ d := by
  unfold alookup at h
  obtain ⟨p, hp, hpv⟩ := Option.map_eq_some'.mp h
  have hmem := List.mem_of_find?_eq_some hp
  have hkey := List.find?_some hp
  simp only [decide_eq_true_eq] at hkey
  obtain ⟨k1, v1⟩ := p
  cases hkey
  cases hpv
  exact hmem

theorem alookup_eq_some_of_mem {d : List (κ × β)} {k : κ} {v : β}
    (hnd : (dkeys d).Nodup) (h : (k, v) ∈ d) : alookup d k = some v := by
  induction d with
  | nil => cases h
  | cons hd tl ih =>
    obtain ⟨k1, v1⟩ := hd
    simp only [dkeys, List.map_cons, List.nodup_cons] at hnd
    by_cases hk : k1 = k
    · subst hk
      have hv : v = v1 := by
        rcases List.mem_cons.mp h with h1 | h1
        · cases h1; rfl
        · exact absurd (List.mem_map_of_mem Prod.fst h1) hnd.1
      subst hv
      unfold alookup
      simp [List.find?_cons_of_pos]
    · have h1 : (k, v) ∈ tl := by
        rcases List.mem_cons.mp h with h2 | h2
        · cases h2; exact absurd rfl hk
        · exact h2
      have := ih hnd.2 h1
      unfold alookup at this ⊢
      rwa [List.find?_cons_of_neg]
      simpa using hk

theorem alookup_eq_none_iff {d : List (κ × β)} {k : κ} :
    alookup d k = none ↔ k ∉ dkeys d := by
  unfold alookup dkeys
  rw [Option.map_eq_none', List.find?_eq_none]
  constructor
  · intro h hk
    obtain ⟨p, hp, hpk⟩ := List.mem_map.mp hk
    exact absurd (by simpa using hpk) (by simpa using h p hp)
  · intro h p hp
    simp only [decide_eq_true_eq]
    intro hpk
    exact h (List.mem_map.mpr ⟨p, hp, hpk⟩)

theorem alookup_isSome_iff {d : List (κ × β)} {k : κ} :
    (alookup d k).isSome ↔ k ∈ dkeys d := by
  constructor
  · intro h
    obtain ⟨v, hv⟩ := Option.isSome_iff_exists.mp h
    exact List.mem_map_of_mem Prod.fst (mem_of_alookup_eq_some hv)
  · intro h
    cases hl : alookup d k with
    | none => exact absurd h (alookup_eq_none_iff.mp hl)
    | some v => rfl

theorem mem_dpop {d : List (κ × β)} {k : κ} {p : κ × β} :
    p ∈ dpop d k ↔ p ∈ d ∧ p.1 ≠ k := by
  unfold dpop
  rw [List.mem_filter]
  simp

theorem dpop_sublist (d : List (κ × β)) (k : κ) : (dpop d k).Sublist d :=
  List.filter_sublist d

theorem nodup_dkeys_dpop {d : List (κ × β)} {k : κ}
    (hnd : (dkeys d).Nodup) : (dkeys (dpop d k)).Nodup :=
  ((dpop_sublist d k).map Prod.fst).nodup hnd

theorem dpop_eq_self_of_not_mem {d : List (κ × β)} {k : κ}
    (h : k ∉ dkeys d) : dpop d k = d := by
  unfold dpop
  rw [List.filter_eq_self]
  intro p hp
  simp only [ne_eq, decide_not, Bool.not_eq_eq_eq_not, Bool.not_true,
    decide_eq_false_iff_not]
  intro hpk
  exact h (hpk ▸ List.mem_map_of_mem Prod.fst hp)

theorem length_dpop {d : List (κ × β)} {k : κ}
    (hnd : (dkeys d).Nodup) (hmem : k ∈ dkeys d) :
    (dpop d k).length = d.length - 1 := by
  induction d with
  | nil => cases hmem
  | cons hd tl ih =>
    obtain ⟨k1, v1⟩ := hd
    simp only [dkeys, List.map_cons, List.nodup_cons] at hnd
    by_cases hk : k1 = k
    · subst hk
      have : dpop ((k1, v1) :: tl) k1 = dpop tl k1 := by
        unfold dpop
        rw [List.filter_cons_of_neg]
        simp
      rw [this, dpop_eq_self_of_not_mem hnd.1]
      simp
    · have hmem2 : k ∈ dkeys tl := by
        rcases List.mem_cons.mp hmem with h1 | h1
        · exact absurd h1.symm hk
        · exact h1
      have hlen : 1 ≤ tl.length := by
        obtain ⟨p, hp, _⟩ := List.mem_map.mp hmem2
        exact List.length_pos.mpr (List.ne_nil_of_mem hp)
      have : dpop ((k1, v1) :: tl) k = (k1, v1) :: dpop tl k := by
        unfold dpop
        rw [List.filter_cons_of_pos]
        simpa using hk
      rw [this]
      simp only [List.length_cons, ih hnd.2 hmem2]
      omega

theorem dinsert_of_not_mem {d : List (κ × β)} {k : κ} (v : β)
    (h : k ∉ dkeys d) : dinsert d k v = d ++ [(k, v)] := by
  unfold dinsert
  rw [if_neg]
  rw [alookup_eq_none_iff.mpr h]
  simp

theorem alookup_append_left {d e : List (κ × β)} {k : κ}
    (h : k ∈ dkeys d) : alookup (d ++ e) k = alookup d k := by
  unfold alookup
  rw [List.find?_append]
  have : (d.find? (fun p => decide (p.1 = k))).isSome := by
    rw [List.find?_isSome]
    obtain ⟨p, hp, hpk⟩ := List.mem_map.mp h
    exact ⟨p, hp, by simpa using hpk⟩
  obtain ⟨p, hp⟩ := Option.isSome_iff_exists.mp this
  rw [hp]
  rfl

theorem alookup_append_right {d e : List (κ × β)} {k : κ}
    (h : k ∉ dkeys d) : alookup (d ++ e) k = alookup e k := by
  unfold alookup
  rw [List.find?_append]
  rw [show d.find? (fun p => decide (p.1 = k)) = none from ?_]
  · rfl
  · rw [List.find?_eq_none]
    intro p hp
    simp only [decide_eq_true_eq]
    intro hpk
    exact h (hpk ▸ List.mem_map_of_mem Prod.fst hp)

end Dict

/-! ## Dictionary invariant lemmas for read_batch -/

theorem nodup_key_unique {κ β : Type} [DecidableEq κ] {d : List (κ × β)}
    {k : κ} {a b : β} (hnd : (dkeys d).Nodup) (h1 : (k, a) ∈ d)
    (h2 : (k, b) ∈ d) : a = b := by
  have e1 := alookup_eq_some_of_mem hnd h1
  have e2 := alookup_eq_some_of_mem hnd h2
  rw [e1] at e2
  exact Option.some_inj.mp e2

theorem word_id_lt_word_num {v : Vocab} (h : InvV v) (h4 : 4 ≤ v.word_num)
    (w : String) : word_id v w < v.word_num := by
  unfold word_id
  cases hl : alookup v.word2id w with
  | none =>
    simp only [Option.getD_none]
    omega
  | some i =>
    obtain ⟨_, _, hfwd, _, hlt⟩ := h
    have := hlt _ (hfwd _ (mem_of_alookup_eq_some hl))
    simpa using this

theorem resetStep_eq_some {v u : Vocab} {i : ℕ} (h : resetStep v i = some u) :
    ∃ w, id_word v i = some w ∧ (alookup v.word2id w).isSome ∧
      u = { v with id2word := dpop v.id2word i, word2id := dpop v.word2id w } := by
  unfold resetStep at h
  cases hw : id_word v i with
  | none =>
    rw [hw] at h
    cases h
  | some w =>
    rw [hw] at h
    simp only [Option.bind_eq_bind, Option.some_bind] at h
    cases hl : alookup v.word2id w with
    | none =>
      rw [hl] at h
      cases h
    | some x =>
      rw [hl] at h
      simp only [Option.pure_def, Option.some_inj] at h
      exact ⟨w, rfl, by rw [hl]; rfl, h.symm⟩

theorem resetStep_spec {v u : Vocab} {i : ℕ} (hinv : InvV v)
    (h : resetStep v i = some u) :
    InvV u ∧ u.args = v.args ∧ u.word2cnt = v.word2cnt ∧ u.embed = v.embed ∧
    u.word_num = v.word_num ∧ u.fixed_num = v.fixed_num ∧
    u.user2id = v.user2id ∧ u.product2id = v.product2id ∧
    (∀ q : ℕ × String, q ∈ u.id2word ↔ q ∈ v.id2word ∧ q.1 ≠ i) ∧
    (∀ p : String × ℕ, p ∈ u.word2id ↔ p ∈ v.word2id ∧ p.2 ≠ i) := by
  obtain ⟨w, hw, hws, hu⟩ := resetStep_eq_some h
  subst hu
  obtain ⟨hn1, hn2, hfwd, hbwd, hlt⟩ := hinv
  unfold id_word at hw
  have hiw : (i, w) ∈ v.id2word := by
    by_cases hb : i < v.word_num
    · rw [if_pos hb] at hw
      exact mem_of_alookup_eq_some hw
    · rw [if_neg hb] at hw
      cases hw
  have hwi : (w, i) ∈ v.word2id := hbwd (i, w) hiw
  have key_iff : ∀ p : String × ℕ, p ∈ v.word2id → (p.1 = w ↔ p.2 = i) := by
    intro p hp
    constructor
    · intro h1
      obtain ⟨p1, p2⟩ := p
      cases h1
      exact nodup_key_unique hn1 hp hwi
    · intro h2
      obtain ⟨p1, p2⟩ := p
      cases h2
      exact nodup_key_unique hn2 (hfwd _ hp) hiw
  refine ⟨⟨nodup_dkeys_dpop hn1, nodup_dkeys_dpop hn2, ?_, ?_, ?_⟩,
    rfl, rfl, rfl, rfl, rfl, rfl, rfl, ?_, ?_⟩
  · intro p hp
    obtain ⟨hp1, hp2⟩ := mem_dpop.mp hp
    refine mem_dpop.mpr ⟨hfwd _ hp1, ?_⟩
    intro hcon
    exact hp2 ((key_iff p hp1).mpr hcon)
  · intro q hq
    obtain ⟨hq1, hq2⟩ := mem_dpop.mp hq
    refine mem_dpop.mpr ⟨hbwd _ hq1, ?_⟩
    intro hcon
    exact hq2 ((key_iff (q.2, q.1) (hbwd _ hq1)).mp hcon)
  · intro q hq
    exact hlt _ (mem_dpop.mp hq).1
  · intro q
    exact mem_dpop
  · intro p
    rw [mem_dpop]
    constructor
    · rintro ⟨hp1, hp2⟩
      exact ⟨hp1, fun hcon => hp2 ((key_iff p hp1).mpr hcon)⟩
    · rintro ⟨hp1, hp2⟩
      exact ⟨hp1, fun hcon => hp2 ((key_iff p hp1).mp hcon)⟩

theorem resetFold_spec (l : List ℕ) (v u : Vocab) (hinv : InvV v)
    (h : List.foldlM resetStep v l = some u) :
    InvV u ∧ u.args = v.args ∧ u.word2cnt = v.word2cnt ∧ u.embed = v.embed ∧
    u.word_num = v.word_num ∧ u.fixed_num = v.fixed_num ∧
    u.user2id = v.user2id ∧ u.product2id = v.product2id ∧
    (∀ q : ℕ × String, q ∈ u.id2word ↔ q ∈ v.id2word ∧ q.1 ∉ l) ∧
    (∀ p : String × ℕ, p ∈ u.word2id ↔ p ∈ v.word2id ∧ p.2 ∉ l) := by
  induction l generalizing v with
  | nil =>
    simp only [List.foldlM_nil, Option.pure_def, Option.some_inj] at h
    subst h
    simp [hinv]
  | cons i is ih =>
    simp only [List.foldlM_cons] at h
    cases hs : resetStep v i with
    | none =>
      rw [hs] at h
      cases h
    | some v' =>
      rw [hs] at h
      simp only [Option.bind_eq_bind, Option.some_bind] at h
      obtain ⟨hinv', hargs, hcnt, hemb, hwn, hfn, hus, hpr, hid, hwd⟩ :=
        resetStep_spec hinv hs
      obtain ⟨hinv2, hargs2, hcnt2, hemb2, hwn2, hfn2, hus2, hpr2, hid2, hwd2⟩ :=
        ih v' hinv' h
      refine ⟨hinv2, hargs2.trans hargs, hcnt2.trans hcnt, hemb2.trans hemb,
        hwn2.trans hwn, hfn2.trans hfn, hus2.trans hus, hpr2.trans hpr, ?_, ?_⟩
      · intro q
        rw [hid2, hid]
        simp only [List.mem_cons]
        tauto
      · intro p
        rw [hwd2, hwd]
        simp only [List.mem_cons]
        tauto

theorem resetDyn_spec {v v1 : Vocab} (hinv : InvV v)
    (hfw : v.fixed_num ≤ v.word_num) (h : resetDyn v = some v1) :
    InvV v1 ∧ v1.args = v.args ∧ v1.word2cnt = v.word2cnt ∧ v1.embed = v.embed ∧
    v1.word_num = v.fixed_num ∧ v1.fixed_num = v.fixed_num ∧
    v1.user2id = v.user2id ∧ v1.product2id = v.product2id ∧
    (∀ q : ℕ × String, q ∈ v1.id2word ↔ q ∈ v.id2word ∧ q.1 < v.fixed_num) ∧
    (∀ p : String × ℕ, p ∈ v1.word2id ↔ p ∈ v.word2id ∧ p.2 < v.fixed_num) := by
  unfold resetDyn at h
  cases hf : List.foldlM resetStep v (List.range' v.fixed_num (v.word_num - v.fixed_num)) with
  | none =>
    rw [hf] at h
    cases h
  | some u =>
    rw [hf] at h
    simp only [Option.bind_eq_bind, Option.some_bind, Option.pure_def, Option.some_inj] at h
    subst h
    obtain ⟨⟨hn1, hn2, hfwd, hbwd, hlt⟩, hargs, hcnt, hemb, hwn, hfn, hus, hpr,
      hid, hwd⟩ := resetFold_spec _ v u hinv hf
    have hrange : ∀ j : ℕ, j < v.word_num →
        (j ∉ List.range' v.fixed_num (v.word_num - v.fixed_num) ↔ j < v.fixed_num) := by
      intro j hj
      rw [List.mem_range'_1]
      omega
    refine ⟨⟨hn1, hn2, hfwd, hbwd, ?_⟩, hargs, hcnt, hemb, rfl, hfn, hus, hpr, ?_, ?_⟩
    · intro q hq
      have h1 := (hid q).mp hq
      have h2 := hinv.2.2.2.2 _ h1.1
      simp only
      exact ((hrange q.1 h2).mp h1.2)
    · intro q
      rw [hid]
      constructor
      · rintro ⟨h1, h2⟩
        exact ⟨h1, (hrange q.1 (hinv.2.2.2.2 _ h1)).mp h2⟩
      · rintro ⟨h1, h2⟩
        exact ⟨h1, (hrange q.1 (hinv.2.2.2.2 _ h1)).mpr h2⟩
    · intro p
      rw [hwd]
      have hval : p ∈ v.word2id → p.2 < v.word_num := by
        intro hp
        exact hinv.2.2.2.2 _ (hinv.2.2.1 _ hp)
      constructor
      · rintro ⟨h1, h2⟩
        exact ⟨h1, (hrange p.2 (hval h1)).mp h2⟩
      · rintro ⟨h1, h2⟩
        exact ⟨h1, (hrange p.2 (hval h1)).mpr h2⟩

theorem extendWord_spec {v : Vocab} (hinv : InvV v) (w : String) :
    InvV (extendWord v w) ∧ (extendWord v w).args = v.args ∧
    (extendWord v w).word2cnt = v.word2cnt ∧ (extendWord v w).embed = v.embed ∧
    (extendWord v w).fixed_num = v.fixed_num ∧
    (extendWord v w).user2id = v.user2id ∧
    (extendWord v w).product2id = v.product2id ∧
    v.word_num ≤ (extendWord v w).word_num ∧
    (∀ p : String × ℕ, p ∈ v.word2id → p ∈ (extendWord v w).word2id) ∧
    (∀ p : String × ℕ, p ∈ (extendWord v w).word2id →
      p ∈ v.word2id ∨ (p.1 = w ∧ v.word_num ≤ p.2)) := by
  obtain ⟨hn1, hn2, hfwd, hbwd, hlt⟩ := hinv
  unfold extendWord
  by_cases hmem : (alookup v.word2id w).isSome
  · rw [if_pos hmem]
    exact ⟨⟨hn1, hn2, hfwd, hbwd, hlt⟩, rfl, rfl, rfl, rfl, rfl, rfl, le_refl _,
      fun p hp => hp, fun p hp => Or.inl hp⟩
  · rw [if_neg hmem]
    have hwkeys : w ∉ dkeys v.word2id := by
      intro hcon
      exact hmem (alookup_isSome_iff.mpr hcon)
    have hidkeys : v.word_num ∉ dkeys v.id2word := by
      intro hcon
      obtain ⟨q, hq, hqk⟩ := List.mem_map.mp hcon
      exact absurd (hqk ▸ hlt q hq) (lt_irrefl _)
    rw [dinsert_of_not_mem _ hwkeys, dinsert_of_not_mem _ hidkeys]
    refine ⟨⟨?_, ?_, ?_, ?_, ?_⟩, rfl, rfl, rfl, rfl, rfl, rfl, by simp, ?_, ?_⟩
    · rw [dkeys_append]
      simp only [List.nodup_append]
      exact ⟨hn1, by simp [dkeys], by simpa [dkeys] using hwkeys⟩
    · rw [dkeys_append]
      simp only [List.nodup_append]
      exact ⟨hn2, by simp [dkeys], by simpa [dkeys] using hidkeys⟩
    · intro p hp
      rcases List.mem_append.mp hp with h1 | h1
      · exact List.mem_append_left _ (hfwd _ h1)
      · simp only [List.mem_singleton] at h1
        subst h1
        simp
    · intro q hq
      rcases List.mem_append.mp hq with h1 | h1
      · exact List.mem_append_left _ (hbwd _ h1)
      · simp only [List.mem_singleton] at h1
        subst h1
        simp
    · intro q hq
      rcases List.mem_append.mp hq with h1 | h1
      · exact Nat.lt_succ_of_lt (hlt _ h1)
      · simp only [List.mem_singleton] at h1
        subst h1
        simp
    · intro p hp
      exact List.mem_append_left _ hp
    · intro p hp
      rcases List.mem_append.mp hp with h1 | h1
      · exact Or.inl h1
      · simp only [List.mem_singleton] at h1
        subst h1
        exact Or.inr ⟨rfl, le_refl _⟩

theorem extendWordsFold_spec (ws : List String) (v : Vocab) (hinv : InvV v) :
    InvV (ws.foldl extendWord v) ∧ (ws.foldl extendWord v).args = v.args ∧
    (ws.foldl extendWord v).word2cnt = v.word2cnt ∧
    (ws.foldl extendWord v).embed = v.embed ∧
    (ws.foldl extendWord v).fixed_num = v.fixed_num ∧
    (ws.foldl extendWord v).user2id = v.user2id ∧
    (ws.foldl extendWord v).product2id = v.product2id ∧
    v.word_num ≤ (ws.foldl extendWord v).word_num ∧
    (∀ p : String × ℕ, p ∈ v.word2id → p ∈ (ws.foldl extendWord v).word2id) ∧
    (∀ p : String × ℕ, p ∈ (ws.foldl extendWord v).word2id →
      p ∈ v.word2id ∨ (p.1 ∈ ws ∧ v.word_num ≤ p.2)) := by
  induction ws generalizing v with
  | nil =>
    exact ⟨hinv, rfl, rfl, rfl, rfl, rfl, rfl, le_refl _, fun p hp => hp,
      fun p hp => Or.inl hp⟩
  | cons w ws ih =>
    rw [List.foldl_cons]
    obtain ⟨hinv1, hargs1, hcnt1, hemb1, hfn1, hus1, hpr1, hwn1, hmono1, hchar1⟩ :=
      extendWord_spec hinv w
    obtain ⟨hinv2, hargs2, hcnt2, hemb2, hfn2, hus2, hpr2, hwn2, hmono2, hchar2⟩ :=
      ih (extendWord v w) hinv1
    refine ⟨hinv2, hargs2.trans hargs1, hcnt2.trans hcnt1, hemb2.trans hemb1,
      hfn2.trans hfn1, hus2.trans hus1, hpr2.trans hpr1, le_trans hwn1 hwn2,
      fun p hp => hmono2 p (hmono1 p hp), ?_⟩
    intro p hp
    rcases hchar2 p hp with h1 | ⟨h1, h2⟩
    · rcases hchar1 p h1 with h3 | ⟨h3, h4⟩
      · exact Or.inl h3
      · exact Or.inr ⟨by simp [h3], h4⟩
    · exact Or.inr ⟨by simp [h1], le_trans hwn1 h2⟩

theorem extendDyn_spec (rs : List (List String)) (v : Vocab) (hinv : InvV v) :
    InvV (extendDyn v rs) ∧ (extendDyn v rs).args = v.args ∧
    (extendDyn v rs).word2cnt = v.word2cnt ∧
    (extendDyn v rs).embed = v.embed ∧
    (extendDyn v rs).fixed_num = v.fixed_num ∧
    (extendDyn v rs).user2id = v.user2id ∧
    (extendDyn v rs).product2id = v.product2id ∧
    v.word_num ≤ (extendDyn v rs).word_num ∧
    (∀ p : String × ℕ, p ∈ v.word2id → p ∈ (extendDyn v rs).word2id) ∧
    (∀ p : String × ℕ, p ∈ (extendDyn v rs).word2id →
      p ∈ v.word2id ∨ ((∃ r ∈ rs, p.1 ∈ r) ∧ v.word_num ≤ p.2)) := by
  induction rs generalizing v with
  | nil =>
    exact ⟨hinv, rfl, rfl, rfl, rfl, rfl, rfl, le_refl _, fun p hp => hp,
      fun p hp => Or.inl hp⟩
  | cons r rs ih =>
    have hstep : extendDyn v (r :: rs) = extendDyn (r.foldl extendWord v) rs := rfl
    rw [hstep]
    obtain ⟨hinv1, hargs1, hcnt1, hemb1, hfn1, hus1, hpr1, hwn1, hmono1, hchar1⟩ :=
      extendWordsFold_spec r v hinv
    obtain ⟨hinv2, hargs2, hcnt2, hemb2, hfn2, hus2, hpr2, hwn2, hmono2, hchar2⟩ :=
      ih (r.foldl extendWord v) hinv1
    refine ⟨hinv2, hargs2.trans hargs1, hcnt2.trans hcnt1, hemb2.trans hemb1,
      hfn2.trans hfn1, hus2.trans hus1, hpr2.trans hpr1, le_trans hwn1 hwn2,
      fun p hp => hmono2 p (hmono1 p hp), ?_⟩
    intro p hp
    rcases hchar2 p hp with h1 | ⟨⟨s, hs1, hs2⟩, h2⟩
    · rcases hchar1 p h1 with h3 | ⟨h3, h4⟩
      · exact Or.inl h3
      · exact Or.inr ⟨⟨r, by simp, h3⟩, h4⟩
    · exact Or.inr ⟨⟨s, by simp [hs1], hs2⟩, le_trans hwn1 h2⟩

theorem readBatch_eq_some {v v' : Vocab} {b : Batch} {out : RBOut}
    (h : readBatch v b = some (v', out)) :
    ∃ v1 s0 rest, resetDyn v = some v1 ∧ sortedSrc b = s0 :: rest ∧
      v' = extendDyn v1 (sortedSrc b) ∧
      out = rbOut (extendDyn v1 (sortedSrc b)) b s0.length := by
  unfold readBatch at h
  cases hr : resetDyn v with
  | none =>
    rw [hr] at h
    cases h
  | some v1 =>
    rw [hr] at h
    simp only [Option.bind_eq_bind, Option.some_bind] at h
    cases hst : sortedSrc b with
    | nil =>
      rw [hst] at h
      cases h
    | cons s0 rest =>
      rw [hst] at h
      simp only [Option.pure_def, Option.some_inj, Prod.mk.injEq] at h
      exact ⟨v1, s0, rest, rfl, rfl, h.1.symm, h.2.symm⟩

theorem word_id_mem {v : Vocab} {w : String} {i : ℕ}
    (hne : i ≠ 3) (h : word_id v w = i) : (w, i) ∈ v.word2id := by
  unfold word_id at h
  cases hl : alookup v.word2id w with
  | none =>
    rw [hl] at h
    simp only [Option.getD_none] at h
    exact absurd h.symm hne
  | some j =>
    rw [hl] at h
    simp only [Option.getD_some] at h
    subst h
    exact mem_of_alookup_eq_some hl

theorem mem_mkTrgRow_lt {v2 : Vocab} (hinv : InvV v2) (h4 : 4 ≤ v2.word_num)
    (maxLen : ℕ) (srcRow : List ℕ) (summary : List String) :
    ∀ id ∈ mkTrgRow v2 maxLen srcRow summary, id < v2.word_num := by
  intro id hid
  unfold mkTrgRow at hid
  rcases List.mem_append.mp hid with h1 | h1
  · obtain ⟨w, _, hwid⟩ := List.mem_map.mp h1
    split at hwid
    · omega
    · exact hwid ▸ word_id_lt_word_num hinv h4 w
  · have := List.eq_of_mem_replicate h1
    omega

theorem mem_mkTrgRow_ge_fixed {v2 : Vocab} (h4 : 4 ≤ v2.fixed_num)
    (maxLen : ℕ) (srcRow : List ℕ) (summary : List String) :
    ∀ id ∈ mkTrgRow v2 maxLen srcRow summary,
      v2.fixed_num ≤ id → id ∈ srcRow := by
  intro id hid hge
  unfold mkTrgRow at hid
  rcases List.mem_append.mp hid with h1 | h1
  · obtain ⟨w, _, hwid⟩ := List.mem_map.mp h1
    split at hwid
    · omega
    · rename_i hcond
      rw [not_and_or] at hcond
      rcases hcond with hc | hc
      · rw [hwid] at hc
        exact absurd hge hc
      · rw [not_not] at hc
        exact hwid ▸ hc
  · have := List.eq_of_mem_replicate h1
    omega

theorem mkTrgRow_downgrade {v2 : Vocab} (maxLen : ℕ) (srcRow : List ℕ)
    (summary : List String) (j : ℕ) (w : String)
    (hw : ((summary ++ ["<EOS>"]).take maxLen)[j]? = some w)
    (hge : v2.fixed_num ≤ word_id v2 w) (hnot : word_id v2 w ∉ srcRow) :
    (mkTrgRow v2 maxLen srcRow summary)[j]? = some 3 := by
  have hj : j < ((summary ++ ["<EOS>"]).take maxLen).length :=
    (List.getElem?_eq_some.mp hw).1
  unfold mkTrgRow
  rw [List.getElem?_append, if_pos (by simpa using hj), List.getElem?_map, hw]
  simp [hge, hnot]

/-- C3: read_batch first removes every id at or beyond fixed_num from both
directions and resets word_num to fixed_num; afterwards the frequency
counts, the embedding table and the fixed-segment boundary are untouched,
the fixed-segment mappings are exactly preserved, and every dynamic entry
of the resulting vocabulary is a token of the current batch, so no extended
id can refer to a token introduced only by a previous dynamic segment. -/
theorem c3_batch_isolation {v v' : Vocab} {b : Batch} {out : RBOut}
    (hwf : WfCore v) (h : readBatch v b = some (v', out)) :
    (∃ v1, resetDyn v = some v1 ∧
      (∀ q ∈ v1.id2word, q.1 < v.fixed_num) ∧
      (∀ p ∈ v1.word2id, p.2 < v.fixed_num) ∧
      v1.word_num = v.fixed_num ∧
      v1.word2cnt = v.word2cnt ∧ v1.embed = v.embed) ∧
    v'.word2cnt = v.word2cnt ∧ v'.embed = v.embed ∧
    v'.fixed_num = v.fixed_num ∧
    (∀ p : String × ℕ, p ∈ v.word2id → p.2 < v.fixed_num → p ∈ v'.word2id) ∧
    (∀ p : String × ℕ, p ∈ v'.word2id → p.2 < v.fixed_num → p ∈ v.word2id) ∧
    (∀ p : String × ℕ, p ∈ v'.word2id → v.fixed_num ≤ p.2 →
      ∃ r ∈ sortedSrc b, p.1 ∈ r) := by
  obtain ⟨hinv, h4, hfw, _⟩ := hwf
  obtain ⟨v1, s0, rest, hr, hst, hv2, hout⟩ := readBatch_eq_some h
  obtain ⟨hinv1, hargs1, hcnt1, hemb1, hwn1, hfn1, hus1, hpr1, hid1, hwd1⟩ :=
    resetDyn_spec hinv hfw hr
  obtain ⟨hinv2, hargs2, hcnt2, hemb2, hfn2, hus2, hpr2, hwn2, hmono2, hchar2⟩ :=
    extendDyn_spec (sortedSrc b) v1 hinv1
  subst hv2
  refine ⟨⟨v1, hr, fun q hq => ((hid1 q).mp hq).2, fun p hp => ((hwd1 p).mp hp).2,
    hwn1, hcnt1, hemb1⟩, hcnt2.trans hcnt1, hemb2.trans hemb1,
    hfn2.trans hfn1, ?_, ?_, ?_⟩
  · intro p hp hlt
    exact hmono2 p ((hwd1 p).mpr ⟨hp, hlt⟩)
  · intro p hp hlt
    rcases hchar2 p hp with h1 | ⟨_, h2⟩
    · exact ((hwd1 p).mp h1).1
    · rw [hwn1] at h2
      omega
  · intro p hp hge
    rcases hchar2 p hp with h1 | ⟨h2, _⟩
    · have := ((hwd1 p).mp h1).2
      omega
    · exact h2

/-- Witness for C3 on a concrete vocabulary carrying a stale dynamic entry. -/
theorem c3_batch_isolation_witness :
    WfCore exVocabDyn ∧
    readBatch exVocabDyn exBatch = some (exRBpair.1, exRBpair.2) ∧
    ((∃ v1, resetDyn exVocabDyn = some v1 ∧
      (∀ q ∈ v1.id2word, q.1 < exVocabDyn.fixed_num) ∧
      (∀ p ∈ v1.word2id, p.2 < exVocabDyn.fixed_num) ∧
      v1.word_num = exVocabDyn.fixed_num ∧
      v1.word2cnt = exVocabDyn.word2cnt ∧ v1.embed = exVocabDyn.embed) ∧
    exRBpair.1.word2cnt = exVocabDyn.word2cnt ∧
    exRBpair.1.embed = exVocabDyn.embed ∧
    exRBpair.1.fixed_num = exVocabDyn.fixed_num ∧
    (∀ p : String × ℕ, p ∈ exVocabDyn.word2id → p.2 < exVocabDyn.fixed_num →
      p ∈ exRBpair.1.word2id) ∧
    (∀ p : String × ℕ, p ∈ exRBpair.1.word2id → p.2 < exVocabDyn.fixed_num →
      p ∈ exVocabDyn.word2id) ∧
    (∀ p : String × ℕ, p ∈ exRBpair.1.word2id → exVocabDyn.fixed_num ≤ p.2 →
      ∃ r ∈ sortedSrc exBatch, p.1 ∈ r)) :=
  ⟨by decide, by decide,
    @c3_batch_isolation exVocabDyn exRBpair.1 exBatch exRBpair.2
      (by decide) (by decide)⟩

/-- C1: every extended target id produced by read_batch is below the total
vocabulary size after dynamic extension; every target id at or beyond
fixed_num occurs in the extended source row of the same example; and a
target token whose id is at or beyond fixed_num but absent from that source
row is written out as UNK (3). -/
theorem c1_copy_reachability {v v' : Vocab} {b : Batch} {out : RBOut}
    (hwf : WfCore v) (h : readBatch v b = some (v', out)) :
    (∀ row ∈ out.trg, ∀ id ∈ row, id < v'.word_num) ∧
    (∀ i : ℕ, ∀ row, out.trg[i]? = some row → ∀ id ∈ row,
      v'.fixed_num ≤ id → id ∈ (out.src[i]?.getD [])) ∧
    (∀ i : ℕ, ∀ summ, out.trg_text[i]? = some summ → ∀ (j : ℕ) (w : String),
      ((summ ++ ["<EOS>"]).take v'.args.sum_max_len)[j]? = some w →
      v'.fixed_num ≤ word_id v' w → word_id v' w ∉ (out.src[i]?.getD []) →
      ∃ row, out.trg[i]? = some row ∧ row[j]? = some 3) := by
  obtain ⟨hinv, h4, hfw, _⟩ := hwf
  obtain ⟨v1, s0, rest, hr, hst, hv2, hout⟩ := readBatch_eq_some h
  obtain ⟨hinv1, hargs1, hcnt1, hemb1, hwn1, hfn1, hus1, hpr1, hid1, hwd1⟩ :=
    resetDyn_spec hinv hfw hr
  obtain ⟨hinv2, hargs2, hcnt2, hemb2, hfn2, hus2, hpr2, hwn2, hmono2, hchar2⟩ :=
    extendDyn_spec (sortedSrc b) v1 hinv1
  have h4wn : 4 ≤ (extendDyn v1 (sortedSrc b)).word_num := by
    rw [hwn1] at hwn2
    omega
  have h4fx : 4 ≤ (extendDyn v1 (sortedSrc b)).fixed_num := by
    rw [hfn2.trans hfn1]
    omega
  subst hv2 hout
  have htrg : ∀ i : ℕ, (rbOut (extendDyn v1 (sortedSrc b)) b s0.length).trg[i]? =
      ((sortedTrg b)[i]?).map (fun s =>
        mkTrgRow (extendDyn v1 (sortedSrc b))
          ((extendDyn v1 (sortedSrc b)).args.sum_max_len)
          ((((sortedSrc b).map (mkSrcRow (extendDyn v1 (sortedSrc b)) s0.length))[i]?).getD [])
          s) := by
    intro i
    show ((sortedTrg b).enum.map _)[i]? = _
    rw [List.getElem?_map, List.getElem?_enum, Option.map_map]
    rfl
  refine ⟨?_, ?_, ?_⟩
  · intro row hrow id hid
    obtain ⟨p, _, hpr⟩ := List.mem_map.mp hrow
    exact mem_mkTrgRow_lt hinv2 h4wn _ _ _ id (hpr ▸ hid)
  · intro i row hrowi id hid hge
    rw [htrg i] at hrowi
    cases hs : (sortedTrg b)[i]? with
    | none =>
      rw [hs] at hrowi
      cases hrowi
    | some s =>
      rw [hs] at hrowi
      simp only [Option.map_some', Option.some_inj] at hrowi
      subst hrowi
      exact mem_mkTrgRow_ge_fixed h4fx _ _ _ id hid hge
  · intro i summ hsummi j w hw hge hnot
    have hs : (sortedTrg b)[i]? = some summ := hsummi
    refine ⟨mkTrgRow (extendDyn v1 (sortedSrc b))
      ((extendDyn v1 (sortedSrc b)).args.sum_max_len)
      ((((sortedSrc b).map (mkSrcRow (extendDyn v1 (sortedSrc b)) s0.length))[i]?).getD [])
      summ, ?_, ?_⟩
    · rw [htrg i, hs]
      rfl
    · exact mkTrgRow_downgrade _ _ _ _ _ hw hge hnot

/-- Witness for C1 on the spec scenario: batch source a b x against target
x a y over the a b c vocabulary. -/
theorem c1_copy_reachability_witness :
    WfCore exVocab ∧
    readBatch exVocab exBatch =
      some (((readBatch exVocab exBatch).getD default).1,
        ((readBatch exVocab exBatch).getD default).2) ∧
    ((∀ row ∈ ((readBatch exVocab exBatch).getD default).2.trg, ∀ id ∈ row,
      id < ((readBatch exVocab exBatch).getD default).1.word_num) ∧
    (∀ i : ℕ, ∀ row, ((readBatch exVocab exBatch).getD default).2.trg[i]? = some row →
      ∀ id ∈ row, ((readBatch exVocab exBatch).getD default).1.fixed_num ≤ id →
      id ∈ (((readBatch exVocab exBatch).getD default).2.src[i]?.getD [])) ∧
    (∀ i : ℕ, ∀ summ,
      ((readBatch exVocab exBatch).getD default).2.trg_text[i]? = some summ →
      ∀ (j : ℕ) (w : String), ((summ ++ ["<EOS>"]).take
        ((readBatch exVocab exBatch).getD default).1.args.sum_max_len)[j]? = some w →
      ((readBatch exVocab exBatch).getD default).1.fixed_num ≤
        word_id ((readBatch exVocab exBatch).getD default).1 w →
      word_id ((readBatch exVocab exBatch).getD default).1 w ∉
        (((readBatch exVocab exBatch).getD default).2.src[i]?.getD []) →
      ∃ row, ((readBatch exVocab exBatch).getD default).2.trg[i]? = some row ∧
        row[j]? = some 3)) :=
  ⟨by decide, by decide,
    @c1_copy_reachability exVocab ((readBatch exVocab exBatch).getD default).1
      exBatch ((readBatch exVocab exBatch).getD default).2
      (by decide) (by decide)⟩

/-! ## Claim C9: sorting and padding law of read_batch -/

theorem map_getD_range {α : Type} (l : List α) (d : α) :
    (List.range l.length).map (fun i => l[i]?.getD d) = l := by
  induction l with
  | nil => rfl
  | cons a t ih =>
    rw [List.length_cons, List.range_succ_eq_map, List.map_cons, List.map_map]
    have hf : ((fun i => (a :: t)[i]?.getD d) ∘ Nat.succ)
        = (fun i => t[i]?.getD d) := by
      funext i
      simp
    rw [hf, ih]
    simp

theorem sortIdx_perm (st : List (List String)) (n : ℕ) :
    (sortIdx st n).Perm (List.range n) :=
  List.perm_insertionSort _ _

theorem sortIdx_sorted (st : List (List String)) (n : ℕ) :
    (sortIdx st n).Pairwise (fun a b => srcKeyLen st b ≤ srcKeyLen st a) := by
  haveI : IsTotal ℕ (fun a b => srcKeyLen st b ≤ srcKeyLen st a) :=
    ⟨fun a b => le_total _ _⟩
  haveI : IsTrans ℕ (fun a b => srcKeyLen st b ≤ srcKeyLen st a) :=
    ⟨fun a b c h1 h2 => le_trans h2 h1⟩
  exact List.sorted_insertionSort _ _

theorem srcTexts_eq {b : Batch} (hlen : b.reviewText.length = b.summary.length) :
    srcTexts b = b.reviewText :=
  List.map_fst_zip _ _ (le_of_eq hlen)

theorem length_srcTexts {b : Batch}
    (hlen : b.reviewText.length = b.summary.length) :
    (srcTexts b).length = b.summary.length := by
  rw [srcTexts_eq hlen]
  exact hlen

theorem sortedSrc_perm {b : Batch}
    (hlen : b.reviewText.length = b.summary.length) :
    (sortedSrc b).Perm b.reviewText := by
  unfold sortedSrc batchIdx
  have h1 := (sortIdx_perm (srcTexts b) b.summary.length).map
    (fun i => (srcTexts b)[i]?.getD [])
  refine h1.trans ?_
  rw [← length_srcTexts hlen, map_getD_range, srcTexts_eq hlen]

theorem sortedSrc_sorted (b : Batch) :
    (sortedSrc b).Pairwise (fun r s => s.length ≤ r.length) := by
  unfold sortedSrc batchIdx
  exact List.Pairwise.map _ (fun a c h => h) (sortIdx_sorted (srcTexts b) _)

theorem mkSrcRow_length (v : Vocab) (maxLen : ℕ) (review : List String) :
    (mkSrcRow v maxLen review).length = maxLen := by
  simp only [mkSrcRow, List.length_append, List.length_map,
    List.length_replicate, List.length_take]
  omega

theorem mkMaskRow_length (maxLen : ℕ) (review : List String) :
    (mkMaskRow maxLen review).length = maxLen := by
  simp only [mkMaskRow, List.length_append, List.length_replicate,
    List.length_take]
  omega

theorem mkTrgRow_length (v : Vocab) (maxLen : ℕ) (srcRow : List ℕ)
    (summary : List String) :
    (mkTrgRow v maxLen srcRow summary).length = maxLen := by
  simp only [mkTrgRow, List.length_append, List.length_map,
    List.length_replicate, List.length_take]
  omega

theorem embedSafe_length (v : Vocab) (row : List ℕ) :
    (embedSafe v row).length = row.length :=
  List.length_map _ _

theorem resetDyn_args {v v1 : Vocab} (h : resetDyn v = some v1) :
    v1.args = v.args ∧ v1.fixed_num = v.fixed_num := by
  unfold resetDyn at h
  cases hf : List.foldlM resetStep v (List.range' v.fixed_num (v.word_num - v.fixed_num)) with
  | none =>
    rw [hf] at h
    cases h
  | some u =>
    rw [hf] at h
    simp only [Option.bind_eq_bind, Option.some_bind, Option.pure_def,
      Option.some_inj] at h
    subst h
    have : ∀ (l : List ℕ) (x y : Vocab), List.foldlM resetStep x l = some y →
        y.args = x.args ∧ y.fixed_num = x.fixed_num := by
      intro l
      induction l with
      | nil =>
        intro x y hxy
        simp only [List.foldlM_nil, Option.pure_def, Option.some_inj] at hxy
        subst hxy
        exact ⟨rfl, rfl⟩
      | cons i is ih =>
        intro x y hxy
        simp only [List.foldlM_cons] at hxy
        cases hs : resetStep x i with
        | none =>
          rw [hs] at hxy
          cases hxy
        | some x2 =>
          rw [hs] at hxy
          simp only [Option.bind_eq_bind, Option.some_bind] at hxy
          obtain ⟨w, _, _, rfl⟩ := resetStep_eq_some hs
          obtain ⟨ha, hb⟩ := ih _ _ hxy
          exact ⟨ha, hb⟩
    obtain ⟨ha, hb⟩ := this _ _ _ hf
    exact ⟨ha, hb⟩

theorem extendDyn_args (rs : List (List String)) (v : Vocab) :
    (extendDyn v rs).args = v.args ∧ (extendDyn v rs).fixed_num = v.fixed_num := by
  induction rs generalizing v with
  | nil => exact ⟨rfl, rfl⟩
  | cons r rs ih =>
    have hstep : extendDyn v (r :: rs) = extendDyn (r.foldl extendWord v) rs := rfl
    rw [hstep]
    have hr : ∀ (ws : List String) (x : Vocab),
        (ws.foldl extendWord x).args = x.args ∧
        (ws.foldl extendWord x).fixed_num = x.fixed_num := by
      intro ws
      induction ws with
      | nil => exact fun x => ⟨rfl, rfl⟩
      | cons w ws ihw =>
        intro x
        rw [List.foldl_cons]
        obtain ⟨ha, hb⟩ := ihw (extendWord x w)
        constructor
        · rw [ha]
          unfold extendWord
          split <;> rfl
        · rw [hb]
          unfold extendWord
          split <;> rfl
    obtain ⟨ha, hb⟩ := ih (r.foldl extendWord v)
    obtain ⟨hc, hd⟩ := hr r v
    exact ⟨ha.trans hc, hb.trans hd⟩

/-- C9: for every nonempty batch the examples are reordered by descending
source token count; all src, src_embed and src_mask rows have length equal
to the longest review token count M; all trg and trg_embed rows have length
sum_max_len; the mask is 1 on the first src_lens positions and 0 after;
and source rows are right-padded with PAD (0). -/
theorem mkSrcRow_pad (v2 : Vocab) (maxLen : ℕ) (review : List String) (j : ℕ)
    (h1 : (review.take maxLen).length ≤ j) (h2 : j < maxLen) :
    (mkSrcRow v2 maxLen review)[j]? = some 0 := by
  unfold mkSrcRow
  rw [List.getElem?_append, if_neg (by simp only [List.length_map]; omega)]
  rw [List.getElem?_replicate, if_pos (by simp only [List.length_map]; omega)]

theorem mkTrgRow_pad (v2 : Vocab) (maxLen : ℕ) (srcRow : List ℕ)
    (s : List String) (j : ℕ) (h1 : trgLenOf maxLen s ≤ j) (h2 : j < maxLen) :
    (mkTrgRow v2 maxLen srcRow s)[j]? = some 0 := by
  unfold trgLenOf at h1
  unfold mkTrgRow
  rw [List.getElem?_append, if_neg (by simp only [List.length_map]; omega)]
  rw [List.getElem?_replicate, if_pos (by simp only [List.length_map]; omega)]

theorem c9_sort_and_padding {v v' : Vocab} {b : Batch} {out : RBOut}
    (hlen : b.reviewText.length = b.summary.length)
    (h : readBatch v b = some (v', out)) :
    out.src_text.Perm b.reviewText ∧
    out.src_text.Pairwise (fun r s => s.length ≤ r.length) ∧
    (∃ M, M ∈ b.reviewText.map List.length ∧
      (∀ r ∈ b.reviewText, r.length ≤ M) ∧
      (∀ row ∈ out.src, row.length = M) ∧
      (∀ row ∈ out.src_embed, row.length = M) ∧
      (∀ row ∈ out.src_mask, row.length = M) ∧
      (∀ i : ℕ, ∀ toks, out.src_text[i]? = some toks →
        out.src_lens[i]? = some (toks.take M).length ∧
        out.src_mask[i]? = some (List.replicate (toks.take M).length 1 ++
          List.replicate (M - (toks.take M).length) 0) ∧
        (∀ row, out.src[i]? = some row → ∀ j : ℕ,
          (toks.take M).length ≤ j → j < M → row[j]? = some 0))) ∧
    (∀ row ∈ out.trg, row.length = v.args.sum_max_len) ∧
    (∀ row ∈ out.trg_embed, row.length = v.args.sum_max_len) ∧
    (∀ i : ℕ, ∀ toks, out.trg_text[i]? = some toks →
      out.trg_lens[i]? = some (trgLenOf v.args.sum_max_len toks) ∧
      (∀ row, out.trg[i]? = some row → ∀ j : ℕ,
        trgLenOf v.args.sum_max_len toks ≤ j → j < v.args.sum_max_len →
        row[j]? = some 0) ∧
      (0 < v.fixed_num → ∀ row, out.trg_embed[i]? = some row → ∀ j : ℕ,
        trgLenOf v.args.sum_max_len toks ≤ j → j < v.args.sum_max_len →
        row[j]? = some 0)) ∧
    (0 < v.fixed_num → ∀ i n : ℕ, out.src_lens[i]? = some n →
      ∀ row, out.src_embed[i]? = some row → ∀ j : ℕ, n ≤ j → j < row.length →
      row[j]? = some 0) := by
  obtain ⟨v1, s0, rest, hr, hst, hv2, hout⟩ := readBatch_eq_some h
  have hargs : (extendDyn v1 (sortedSrc b)).args = v.args :=
    (extendDyn_args _ _).1.trans (resetDyn_args hr).1
  have hfixed : (extendDyn v1 (sortedSrc b)).fixed_num = v.fixed_num :=
    (extendDyn_args _ _).2.trans (resetDyn_args hr).2
  have hsum : (extendDyn v1 (sortedSrc b)).args.sum_max_len =
      v.args.sum_max_len := by
    rw [hargs]
  subst hv2 hout
  have htrg : ∀ i : ℕ,
      (rbOut (extendDyn v1 (sortedSrc b)) b s0.length).trg[i]? =
      ((sortedTrg b)[i]?).map (fun s =>
        mkTrgRow (extendDyn v1 (sortedSrc b))
          ((extendDyn v1 (sortedSrc b)).args.sum_max_len)
          ((((sortedSrc b).map
            (mkSrcRow (extendDyn v1 (sortedSrc b)) s0.length))[i]?).getD [])
          s) := by
    intro i
    show ((sortedTrg b).enum.map _)[i]? = _
    rw [List.getElem?_map, List.getElem?_enum, Option.map_map]
    rfl
  have htrge : ∀ i : ℕ,
      (rbOut (extendDyn v1 (sortedSrc b)) b s0.length).trg_embed[i]? =
      ((rbOut (extendDyn v1 (sortedSrc b)) b s0.length).trg[i]?).map
        (embedSafe (extendDyn v1 (sortedSrc b))) := by
    intro i
    show (((sortedTrg b).enum.map _).map _)[i]? = _
    rw [List.getElem?_map]
    rfl
  have hsrce : ∀ i : ℕ,
      (rbOut (extendDyn v1 (sortedSrc b)) b s0.length).src_embed[i]? =
      ((((sortedSrc b).map
        (mkSrcRow (extendDyn v1 (sortedSrc b)) s0.length))[i]?).map
          (embedSafe (extendDyn v1 (sortedSrc b)))) := by
    intro i
    show (((sortedSrc b).map _).map _)[i]? = _
    rw [List.getElem?_map]
  have hsorted := sortedSrc_sorted b
  have hperm := sortedSrc_perm hlen
  refine ⟨hperm, hsorted, ⟨s0.length, ?_, ?_, ?_, ?_, ?_, ?_⟩, ?_, ?_, ?_, ?_⟩
  · have : s0 ∈ sortedSrc b := by
      rw [hst]
      exact List.mem_cons_self _ _
    exact List.mem_map_of_mem List.length (hperm.mem_iff.mp this)
  · intro r hr2
    have hmem : r ∈ sortedSrc b := hperm.mem_iff.mpr hr2
    rw [hst] at hmem hsorted
    rcases List.mem_cons.mp hmem with rfl | hmem2
    · exact le_refl _
    · exact (List.pairwise_cons.mp hsorted).1 r hmem2
  · intro row hrow
    obtain ⟨toks, _, rfl⟩ := List.mem_map.mp hrow
    exact mkSrcRow_length _ _ _
  · intro row hrow
    obtain ⟨srow, hsrow, rfl⟩ := List.mem_map.mp hrow
    obtain ⟨toks, _, rfl⟩ := List.mem_map.mp hsrow
    rw [embedSafe_length]
    exact mkSrcRow_length _ _ _
  · intro row hrow
    obtain ⟨toks, _, rfl⟩ := List.mem_map.mp hrow
    exact mkMaskRow_length _ _
  · intro i toks htoks
    have hsrci : (rbOut (extendDyn v1 (sortedSrc b)) b s0.length).src[i]? =
        ((sortedSrc b)[i]?).map (mkSrcRow (extendDyn v1 (sortedSrc b)) s0.length) := by
      show ((sortedSrc b).map _)[i]? = _
      rw [List.getElem?_map]
    have hsti : (sortedSrc b)[i]? = some toks := htoks
    refine ⟨?_, ?_, ?_⟩
    · show ((sortedSrc b).map (fun r => (r.take s0.length).length))[i]? = _
      rw [List.getElem?_map, hsti]
      rfl
    · show ((sortedSrc b).map (mkMaskRow s0.length))[i]? = _
      rw [List.getElem?_map, hsti]
      rfl
    · intro row hrowi j hj1 hj2
      rw [hsrci, hsti] at hrowi
      simp only [Option.map_some', Option.some_inj] at hrowi
      subst hrowi
      unfold mkSrcRow
      rw [List.getElem?_append, if_neg (by simp only [List.length_map]; omega)]
      rw [List.getElem?_replicate,
        if_pos (by simp only [List.length_map]; omega)]
  · intro row hrow
    obtain ⟨p, _, rfl⟩ := List.mem_map.mp hrow
    rw [← hargs]
    exact mkTrgRow_length _ _ _ _
  · intro row hrow
    obtain ⟨trow, htrow, rfl⟩ := List.mem_map.mp hrow
    obtain ⟨p, _, rfl⟩ := List.mem_map.mp htrow
    rw [embedSafe_length, ← hargs]
    exact mkTrgRow_length _ _ _ _
  · intro i toks htoks
    have hti : (sortedTrg b)[i]? = some toks := htoks
    refine ⟨?_, ?_, ?_⟩
    · show ((sortedTrg b).map (trgLenOf
        (extendDyn v1 (sortedSrc b)).args.sum_max_len))[i]? = _
      rw [List.getElem?_map, hti, Option.map_some', hsum]
    · intro row hrowi j hj1 hj2
      rw [htrg i, hti] at hrowi
      simp only [Option.map_some', Option.some_inj] at hrowi
      subst hrowi
      exact mkTrgRow_pad _ _ _ _ j (by rw [hsum]; exact hj1)
        (by rw [hsum]; exact hj2)
    · intro hfx row hrowi j hj1 hj2
      rw [htrge i, htrg i, hti] at hrowi
      simp only [Option.map_some', Option.some_inj] at hrowi
      subst hrowi
      unfold embedSafe
      rw [List.getElem?_map, mkTrgRow_pad _ _ _ _ j (by rw [hsum]; exact hj1)
        (by rw [hsum]; exact hj2)]
      simp only [Option.map_some']
      rw [if_pos (show (0:ℕ) < (extendDyn v1 (sortedSrc b)).fixed_num by
        rw [hfixed]; exact hfx)]
  · intro hfx i n hlens row hrowi j hj1 hj2
    have h1 : ((sortedSrc b).map
        (fun r => (r.take s0.length).length))[i]? = some n := hlens
    rw [List.getElem?_map] at h1
    obtain ⟨toks, hti2, hn⟩ := Option.map_eq_some'.mp h1
    rw [hsrce i, List.getElem?_map, hti2] at hrowi
    simp only [Option.map_some', Option.some_inj] at hrowi
    subst hrowi
    rw [embedSafe_length, mkSrcRow_length] at hj2
    unfold embedSafe
    rw [List.getElem?_map, mkSrcRow_pad _ _ _ j (by omega) hj2]
    simp only [Option.map_some']
    rw [if_pos (show (0:ℕ) < (extendDyn v1 (sortedSrc b)).fixed_num by
      rw [hfixed]; exact hfx)]

/-- Witness for C9 on a concrete two-example batch with distinct review
lengths. -/
theorem c9_sort_and_padding_witness :
    ((exBatch2 : Batch).reviewText.length = exBatch2.summary.length) ∧
    readBatch exVocab exBatch2 =
      some (((readBatch exVocab exBatch2).getD default).1,
        ((readBatch exVocab exBatch2).getD default).2) ∧
    (((readBatch exVocab exBatch2).getD default).2.src_text.Perm
        exBatch2.reviewText ∧
    ((readBatch exVocab exBatch2).getD default).2.src_text.Pairwise
        (fun r s => s.length ≤ r.length) ∧
    (∃ M, M ∈ exBatch2.reviewText.map List.length ∧
      (∀ r ∈ exBatch2.reviewText, r.length ≤ M) ∧
      (∀ row ∈ ((readBatch exVocab exBatch2).getD default).2.src, row.length = M) ∧
      (∀ row ∈ ((readBatch exVocab exBatch2).getD default).2.src_embed,
        row.length = M) ∧
      (∀ row ∈ ((readBatch exVocab exBatch2).getD default).2.src_mask,
        row.length = M) ∧
      (∀ i : ℕ, ∀ toks,
        ((readBatch exVocab exBatch2).getD default).2.src_text[i]? = some toks →
        ((readBatch exVocab exBatch2).getD default).2.src_lens[i]? =
          some (toks.take M).length ∧
        ((readBatch exVocab exBatch2).getD default).2.src_mask[i]? =
          some (List.replicate (toks.take M).length 1 ++
            List.replicate (M - (toks.take M).length) 0) ∧
        (∀ row, ((readBatch exVocab exBatch2).getD default).2.src[i]? = some row →
          ∀ j : ℕ, (toks.take M).length ≤ j → j < M → row[j]? = some 0))) ∧
    (∀ row ∈ ((readBatch exVocab exBatch2).getD default).2.trg,
      row.length = exVocab.args.sum_max_len) ∧
    (∀ row ∈ ((readBatch exVocab exBatch2).getD default).2.trg_embed,
      row.length = exVocab.args.sum_max_len) ∧
    (∀ i : ℕ, ∀ toks,
      ((readBatch exVocab exBatch2).getD default).2.trg_text[i]? = some toks →
      ((readBatch exVocab exBatch2).getD default).2.trg_lens[i]? =
        some (trgLenOf exVocab.args.sum_max_len toks) ∧
      (∀ row, ((readBatch exVocab exBatch2).getD default).2.trg[i]? = some row →
        ∀ j : ℕ, trgLenOf exVocab.args.sum_max_len toks ≤ j →
        j < exVocab.args.sum_max_len → row[j]? = some 0) ∧
      (0 < exVocab.fixed_num → ∀ row,
        ((readBatch exVocab exBatch2).getD default).2.trg_embed[i]? = some row →
        ∀ j : ℕ, trgLenOf exVocab.args.sum_max_len toks ≤ j →
        j < exVocab.args.sum_max_len → row[j]? = some 0)) ∧
    (0 < exVocab.fixed_num → ∀ i n : ℕ,
      ((readBatch exVocab exBatch2).getD default).2.src_lens[i]? = some n →
      ∀ row,
        ((readBatch exVocab exBatch2).getD default).2.src_embed[i]? = some row →
      ∀ j : ℕ, n ≤ j → j < row.length → row[j]? = some 0)) :=
  ⟨by decide, by decide,
    @c9_sort_and_padding exVocab ((readBatch exVocab exBatch2).getD default).1
      exBatch2 ((readBatch exVocab exBatch2).getD default).2
      (by decide) (by decide)⟩

/-! ## Claim C10: implicit EOS handling in target construction -/

theorem trgLenOf_eq (maxLen : ℕ) (s : List String) :
    trgLenOf maxLen s = min (s.length + 1) maxLen := by
  simp only [trgLenOf, List.length_take, List.length_append,
    List.length_singleton]
  omega

theorem word_id_eq_eos {v2 : Vocab} (hinv : InvV v2)
    (heos : ("<EOS>", 2) ∈ v2.word2id) {w : String}
    (h : word_id v2 w = 2) : w = "<EOS>" := by
  obtain ⟨hn1, hn2, hfwd, hbwd, _⟩ := hinv
  have hmem : (w, 2) ∈ v2.word2id := word_id_mem (by omega) h
  exact nodup_key_unique hn2 (hfwd _ hmem) (hfwd _ heos)

theorem mkTrgRow_no_eos {v2 : Vocab} (hinv : InvV v2)
    (heos : ("<EOS>", 2) ∈ v2.word2id) (maxLen : ℕ) (srcRow : List ℕ)
    (summ : List String) (hlong : maxLen ≤ summ.length)
    (hno : "<EOS>" ∉ summ.take maxLen) :
    (2 : ℕ) ∉ mkTrgRow v2 maxLen srcRow summ := by
  intro hmem
  unfold mkTrgRow at hmem
  rw [List.take_append_of_le_length hlong] at hmem
  rcases List.mem_append.mp hmem with h1 | h1
  · obtain ⟨w, hw, hwid⟩ := List.mem_map.mp h1
    split at hwid
    · omega
    · exact hno ((word_id_eq_eos ⟨hinv.1, hinv.2.1, hinv.2.2.1, hinv.2.2.2.1,
        hinv.2.2.2.2⟩ heos hwid) ▸ hw)
  · have := List.eq_of_mem_replicate h1
    omega

theorem makeTensors_eq_ok {m : VocabM} {bm : BatchM} {train : List ExampleRec}
    {outm : MTOut} (h : makeTensors m bm train = .ok outm) :
    ∃ s0 rest rowsL, sortedSrcM bm = s0 :: rest ∧
      List.mapM (memRowsFor m train bm) (batchIdxM bm) = .ok rowsL ∧
      outm =
        { src := (sortedSrcM bm).map (fun r => padTokRow m r s0.length)
          trg := (sortedTrgM bm).map
            (fun s => padTokRow m (s ++ ["<EOS>"]) m.args.sum_max_len)
          mem_up := rowsL.flatten.map (fun r => r.up)
          mem_review := rowsL.flatten.map (fun r => r.review)
          mem_sum := rowsL.flatten.map (fun r => r.summ)
          mem_gold := rowsL.flatten.map (fun r => r.gold)
          src_text := sortedSrcM bm
          trg_text := sortedTrgM bm } := by
  unfold makeTensors at h
  cases hst : sortedSrcM bm with
  | nil =>
    rw [hst] at h
    cases h
  | cons s0 rest =>
    rw [hst] at h
    cases hm : List.mapM (memRowsFor m train bm) (batchIdxM bm) with
    | error e =>
      rw [hm] at h
      cases h
    | ok rowsL =>
      rw [hm] at h
      injection h with h2
      exact ⟨s0, rest, rowsL, rfl, rfl, h2.symm⟩

/-- C10 counterexample: with sum_max_len 4 the summary EOS b a c has 4
tokens, at least sum_max_len, yet its target row is 2 5 4 6 and contains the
EOS id 2, because the summary itself carries the literal EOS token. -/
theorem c10_eos_cex :
    (readBatch exVocab exBatchEOS).isSome ∧
    ((readBatch exVocab exBatchEOS).getD default).2.trg_text[0]?.getD [] =
      ["<EOS>", "b", "a", "c"] ∧
    exVocab.args.sum_max_len ≤
      (((readBatch exVocab exBatchEOS).getD default).2.trg_text[0]?.getD []).length ∧
    ((readBatch exVocab exBatchEOS).getD default).2.trg[0]?.getD [] = [2, 5, 4, 6] ∧
    (2 : ℕ) ∈ ((readBatch exVocab exBatchEOS).getD default).2.trg[0]?.getD [] := by
  decide

/-- C10 amended: read_batch appends EOS before truncating to sum_max_len, so
trg_lens[i] = min(summary tokens + 1, sum_max_len); and a summary with at
least sum_max_len tokens yields a target row with no EOS id provided none of
its first sum_max_len tokens is the literal EOS token (the appended
terminator itself is always cut).  The same holds for the target rows of
make_tensors under the corresponding id-2 hypothesis on its vocabulary. -/
theorem c10_eos_handling {v v' : Vocab} {b : Batch} {out : RBOut}
    (hwf : WfCore v) (h : readBatch v b = some (v', out)) :
    (∀ i : ℕ, ∀ summ, out.trg_text[i]? = some summ →
      out.trg_lens[i]? = some (min (summ.length + 1) v'.args.sum_max_len)) ∧
    (∀ i : ℕ, ∀ summ row, out.trg_text[i]? = some summ → out.trg[i]? = some row →
      v'.args.sum_max_len ≤ summ.length →
      "<EOS>" ∉ summ.take v'.args.sum_max_len → (2 : ℕ) ∉ row) ∧
    (∀ (m : VocabM) (bm : BatchM) (train : List ExampleRec) (outm : MTOut),
      (∀ w : String, (w, 2) ∈ m.word2id → w = "<EOS>") →
      makeTensors m bm train = .ok outm →
      ∀ i : ℕ, ∀ summ row, outm.trg_text[i]? = some summ →
        outm.trg[i]? = some row → m.args.sum_max_len ≤ summ.length →
        "<EOS>" ∉ summ.take m.args.sum_max_len → (2 : ℕ) ∉ row) := by
  obtain ⟨hinv, h4, hfw, _, _, heos, _⟩ := hwf
  obtain ⟨v1, s0, rest, hr, hst, hv2, hout⟩ := readBatch_eq_some h
  obtain ⟨hinv1, hargs1, hcnt1, hemb1, hwn1, hfn1, hus1, hpr1, hid1, hwd1⟩ :=
    resetDyn_spec hinv hfw hr
  obtain ⟨hinv2, hargs2, hcnt2, hemb2, hfn2, hus2, hpr2, hwn2, hmono2, hchar2⟩ :=
    extendDyn_spec (sortedSrc b) v1 hinv1
  have heos2 : ("<EOS>", 2) ∈ (extendDyn v1 (sortedSrc b)).word2id :=
    hmono2 _ ((hwd1 _).mpr ⟨heos, by omega⟩)
  subst hv2 hout
  refine ⟨?_, ?_, ?_⟩
  · intro i summ hsumm
    have hs : (sortedTrg b)[i]? = some summ := hsumm
    show ((sortedTrg b).map (trgLenOf _))[i]? = _
    rw [List.getElem?_map, hs, Option.map_some', trgLenOf_eq]
  · intro i summ row hsumm hrow hlong hno
    have hs : (sortedTrg b)[i]? = some summ := hsumm
    have htrg : (rbOut (extendDyn v1 (sortedSrc b)) b s0.length).trg[i]? =
        ((sortedTrg b)[i]?).map (fun s =>
          mkTrgRow (extendDyn v1 (sortedSrc b))
            ((extendDyn v1 (sortedSrc b)).args.sum_max_len)
            ((((sortedSrc b).map
              (mkSrcRow (extendDyn v1 (sortedSrc b)) s0.length))[i]?).getD [])
            s) := by
      show ((sortedTrg b).enum.map _)[i]? = _
      rw [List.getElem?_map, List.getElem?_enum, Option.map_map]
      rfl
    rw [htrg, hs, Option.map_some', Option.some_inj] at hrow
    subst hrow
    exact mkTrgRow_no_eos hinv2 heos2 _ _ _ hlong hno
  · intro m bm train outm hm2 hmk i summ row hsumm hrow hlong hno
    obtain ⟨t0, trest, rowsL, hstm, hmm, houtm⟩ := makeTensors_eq_ok hmk
    subst houtm
    have hs : (sortedTrgM bm)[i]? = some summ := hsumm
    have hrow2 : ((sortedTrgM bm).map
        (fun s => padTokRow m (s ++ ["<EOS>"]) m.args.sum_max_len))[i]?
        = some row := hrow
    rw [List.getElem?_map, hs, Option.map_some', Option.some_inj] at hrow2
    subst hrow2
    intro hmem
    unfold padTokRow at hmem
    rw [List.take_append_of_le_length hlong] at hmem
    rcases List.mem_append.mp hmem with h1 | h1
    · obtain ⟨w, hw, hwid⟩ := List.mem_map.mp h1
      have hww : w = "<EOS>" := by
        unfold word_idM at hwid
        cases hl : alookup m.word2id w with
        | none =>
          rw [hl] at hwid
          simp only [Option.getD_none] at hwid
          omega
        | some j =>
          rw [hl] at hwid
          simp only [Option.getD_some] at hwid
          subst hwid
          exact hm2 w (mem_of_alookup_eq_some hl)
      exact hno (hww ▸ hw)
    · have := List.eq_of_mem_replicate h1
      omega

/-- Witness for C10 on the spec scenario batch. -/
theorem c10_eos_handling_witness :
    WfCore exVocab ∧
    readBatch exVocab exBatch =
      some (((readBatch exVocab exBatch).getD default).1,
        ((readBatch exVocab exBatch).getD default).2) ∧
    ((∀ i : ℕ, ∀ summ,
      ((readBatch exVocab exBatch).getD default).2.trg_text[i]? = some summ →
      ((readBatch exVocab exBatch).getD default).2.trg_lens[i]? =
        some (min (summ.length + 1)
          ((readBatch exVocab exBatch).getD default).1.args.sum_max_len)) ∧
    (∀ i : ℕ, ∀ summ row,
      ((readBatch exVocab exBatch).getD default).2.trg_text[i]? = some summ →
      ((readBatch exVocab exBatch).getD default).2.trg[i]? = some row →
      ((readBatch exVocab exBatch).getD default).1.args.sum_max_len ≤ summ.length →
      "<EOS>" ∉ summ.take ((readBatch exVocab exBatch).getD default).1.args.sum_max_len →
      (2 : ℕ) ∉ row) ∧
    (∀ (m : VocabM) (bm : BatchM) (train : List ExampleRec) (outm : MTOut),
      (∀ w : String, (w, 2) ∈ m.word2id → w = "<EOS>") →
      makeTensors m bm train = .ok outm →
      ∀ i : ℕ, ∀ summ row, outm.trg_text[i]? = some summ →
        outm.trg[i]? = some row → m.args.sum_max_len ≤ summ.length →
        "<EOS>" ∉ summ.take m.args.sum_max_len → (2 : ℕ) ∉ row)) :=
  ⟨by decide, by decide,
    @c10_eos_handling exVocab ((readBatch exVocab exBatch).getD default).1
      exBatch ((readBatch exVocab exBatch).getD default).2
      (by decide) (by decide)⟩

/-! ## Claim C4: parallel-structure length invariant -/

theorem InvV_length_eq {v : Vocab} (hinv : InvV v) :
    v.word2id.length = v.id2word.length := by
  obtain ⟨hn1, hn2, hfwd, hbwd, _⟩ := hinv
  have hswap : Function.Injective (fun p : String × ℕ => (p.2, p.1)) := by
    intro p q h
    obtain ⟨p1, p2⟩ := p
    obtain ⟨q1, q2⟩ := q
    simp only [Prod.mk.injEq] at h
    simp [h.1, h.2]
  have hnd1 : (v.word2id.map (fun p => (p.2, p.1))).Nodup :=
    (List.Nodup.of_map Prod.fst hn1).map hswap
  have hnd2 : v.id2word.Nodup := List.Nodup.of_map Prod.fst hn2
  have hperm : (v.word2id.map (fun p => (p.2, p.1))).Perm v.id2word := by
    rw [List.perm_ext_iff_of_nodup hnd1 hnd2]
    intro q
    constructor
    · intro hq
      obtain ⟨p, hp, hpq⟩ := List.mem_map.mp hq
      exact hpq ▸ hfwd p hp
    · intro hq
      exact List.mem_map.mpr ⟨(q.2, q.1), hbwd q hq, rfl⟩
  have := hperm.length_eq
  rwa [List.length_map] at this

theorem dkeys_dadjust {κ β : Type} [DecidableEq κ] (d : List (κ × β)) (k : κ)
    (f : β → β) : dkeys (dadjust d k f) = dkeys d := by
  unfold dkeys dadjust
  rw [List.map_map]
  apply List.map_congr_left
  intro p _
  by_cases hp : p.1 = k <;> simp [hp]

theorem length_dadjust {κ β : Type} [DecidableEq κ] (d : List (κ × β)) (k : κ)
    (f : β → β) : (dadjust d k f).length = d.length :=
  List.length_map _ _

theorem mem_dadjust_key {κ β : Type} [DecidableEq κ] {d : List (κ × β)} {k : κ}
    {f : β → β} {p : κ × β} (h : p ∈ dadjust d k f) : p.1 ∈ dkeys d := by
  have : p.1 ∈ dkeys (dadjust d k f) := List.mem_map_of_mem Prod.fst h
  rwa [dkeys_dadjust] at this

theorem LenInv_insert {v : Vocab} (hLI : LenInv v) (w : String) (c : ℕ)
    (row : List ℚ) (habs : ¬ (alookup v.word2id w).isSome) :
    LenInv { v with
      word2id := dinsert v.word2id w v.word_num
      id2word := dinsert v.id2word v.word_num w
      word2cnt := dinsert v.word2cnt w c
      embed := v.embed ++ [row]
      word_num := v.word_num + 1 } := by
  obtain ⟨hl1, hl2, hl3, hid, hcnt⟩ := hLI
  have hw : w ∉ dkeys v.word2id := fun hc => habs (alookup_isSome_iff.mpr hc)
  have hwc : w ∉ dkeys v.word2cnt := by
    intro hc
    obtain ⟨p, hp, hpk⟩ := List.mem_map.mp hc
    exact hw (hpk ▸ hcnt p hp)
  have hn : v.word_num ∉ dkeys v.id2word := by
    intro hc
    obtain ⟨q, hq, hqk⟩ := List.mem_map.mp hc
    exact absurd (hqk ▸ hid q hq) (lt_irrefl _)
  rw [dinsert_of_not_mem _ hw, dinsert_of_not_mem _ hn, dinsert_of_not_mem _ hwc]
  refine ⟨?_, ?_, ?_, ?_, ?_⟩
  · simp only [List.length_append, List.length_singleton]
    omega
  · simp only [List.length_append, List.length_singleton]
    omega
  · simp only [List.length_append, List.length_singleton]
    omega
  · intro q hq
    rcases List.mem_append.mp hq with h1 | h1
    · exact Nat.lt_succ_of_lt (hid q h1)
    · simp only [List.mem_singleton] at h1
      subst h1
      simp
  · intro p hp
    rw [dkeys_append]
    rcases List.mem_append.mp hp with h1 | h1
    · exact List.mem_append_left _ (hcnt p h1)
    · simp only [List.mem_singleton] at h1
      subst h1
      apply List.mem_append_right
      simp [dkeys]

theorem LenInv_initPreStep {v : Vocab} (pre : List (String × List ℚ))
    (w : String) (hLI : LenInv v) : LenInv (initPreStep pre v w) := by
  unfold initPreStep
  split
  · exact hLI
  · exact LenInv_insert hLI w 0 _ (by assumption)

theorem LenInv_vocabInit (args : Args) (r0 r1 r2 r3 : List ℚ)
    (pre : List (String × List ℚ)) : LenInv (vocabInit args r0 r1 r2 r3 pre) := by
  unfold vocabInit
  have hbase : ∀ (l : List String) (v : Vocab), LenInv v →
      LenInv (l.foldl (initPreStep pre) v) := by
    intro l
    induction l with
    | nil => exact fun v h => h
    | cons a t ih =>
      intro v h
      rw [List.foldl_cons]
      exact ih _ (LenInv_initPreStep pre a h)
  refine hbase _ _ ⟨rfl, rfl, rfl, ?_, ?_⟩
  · intro q hq
    fin_cases hq <;> simp
  · intro p hp
    fin_cases hp <;> simp [dkeys]

theorem LenInv_addWord {v : Vocab} (w : String) (row : List ℚ)
    (hLI : LenInv v) : LenInv (addWord v w row) := by
  unfold addWord
  split
  · obtain ⟨hl1, hl2, hl3, hid, hcnt⟩ := hLI
    refine ⟨hl1, by simpa [length_dadjust] using hl2,
      by simpa [length_dadjust] using hl3, hid, ?_⟩
    intro p hp
    have hk := mem_dadjust_key hp
    obtain ⟨q, hq, hqk⟩ := List.mem_map.mp hk
    exact hqk ▸ hcnt q hq
  · exact LenInv_insert hLI w 1 row (by assumption)

theorem LenInv_addSentence {v : Vocab} (sent : List String)
    (fresh : List (List ℚ)) (hLI : LenInv v) :
    LenInv (addSentence v sent fresh) := by
  suffices hgo : ∀ (s : List String) (f : List (List ℚ)) (u : Vocab), LenInv u →
      LenInv (addSentenceGo u s f) by
    unfold addSentence
    exact hgo sent fresh v hLI
  intro s
  induction s with
  | nil => exact fun f u h => h
  | cons w ws ih =>
    intro f u h
    unfold addSentenceGo
    split
    · apply ih
      obtain ⟨hl1, hl2, hl3, hid, hcnt⟩ := h
      refine ⟨hl1, by simpa [length_dadjust] using hl2,
        by simpa [length_dadjust] using hl3, hid, ?_⟩
      intro p hp
      have hk := mem_dadjust_key hp
      obtain ⟨q, hq, hqk⟩ := List.mem_map.mp hk
      exact hqk ▸ hcnt q hq
    · exact ih _ _ (LenInv_addWord w _ h)

theorem trim_eq_some {v v1 : Vocab} (h : trim v = some v1) :
    ∃ kept emb, trimKept v (List.range v.word_num) = some kept ∧
      List.mapM (fun i => v.embed[i]?) (kept.map (fun t => t.1)) = some emb ∧
      ((trimBuild kept).1.length = (trimBuild kept).2.1.length ∧
        (trimBuild kept).2.1.length = (trimBuild kept).2.2.1.length ∧
        (trimBuild kept).2.2.1.length = emb.length) ∧
      v1 = { v with
        word2id := (trimBuild kept).1
        id2word := (trimBuild kept).2.1
        word2cnt := (trimBuild kept).2.2.1
        embed := emb
        word_num := (trimBuild kept).2.2.2
        fixed_num := (trimBuild kept).2.2.2 } := by
  unfold trim at h
  cases hk : trimKept v (List.range v.word_num) with
  | none =>
    rw [hk] at h
    cases h
  | some kept =>
    rw [hk] at h
    simp only [Option.bind_eq_bind, Option.some_bind] at h
    cases he : List.mapM (fun i => v.embed[i]?) (kept.map (fun t => t.1)) with
    | none =>
      rw [show (kept.map (fun t => t.1)).mapM (fun i => v.embed[i]?) =
        List.mapM (fun i => v.embed[i]?) (kept.map (fun t => t.1)) from rfl,
        he] at h
      cases h
    | some emb =>
      rw [show (kept.map (fun t => t.1)).mapM (fun i => v.embed[i]?) =
        List.mapM (fun i => v.embed[i]?) (kept.map (fun t => t.1)) from rfl,
        he] at h
      simp only [Option.bind_eq_bind, Option.some_bind] at h
      split at h
      · rename_i hc
        simp only [Option.pure_def, Option.some_inj] at h
        exact ⟨kept, emb, rfl, he, hc, h.symm⟩
      · cases h

/-- C4 counterexample: after read_batch on a batch with the
out-of-vocabulary source word x, word2id and id2word have 8 entries while
word2cnt and embed still have 7, so the four-way length equality fails
during and after read_batch. -/
theorem c4_lengths_cex :
    (readBatch exVocab exBatch).isSome ∧
    ((readBatch exVocab exBatch).getD default).1.word2id.length = 8 ∧
    ((readBatch exVocab exBatch).getD default).1.id2word.length = 8 ∧
    ((readBatch exVocab exBatch).getD default).1.word2cnt.length = 7 ∧
    ((readBatch exVocab exBatch).getD default).1.embed.length = 7 := by
  decide

/-- C4 amended: the four-way length equality (bundled in LenInv together
with the key invariants that keep it inductive) holds after construction,
is preserved by every add_sentence, and holds after a successful trim;
read_batch instead preserves only len(word2id) = len(id2word) and leaves
word2cnt and embed unchanged, so the four-way equality fails for any batch
that introduces dynamic tokens. -/
theorem c4_parallel_lengths :
    (∀ (args : Args) (r0 r1 r2 r3 : List ℚ) (pre : List (String × List ℚ)),
      LenInv (vocabInit args r0 r1 r2 r3 pre)) ∧
    (∀ (v : Vocab) (sent : List String) (fresh : List (List ℚ)), LenInv v →
      LenInv (addSentence v sent fresh)) ∧
    (∀ (v v1 : Vocab), trim v = some v1 →
      v1.word2id.length = v1.id2word.length ∧
      v1.id2word.length = v1.word2cnt.length ∧
      v1.word2cnt.length = v1.embed.length) ∧
    (∀ (v v' : Vocab) (b : Batch) (out : RBOut), WfCore v →
      readBatch v b = some (v', out) →
      v'.word2id.length = v'.id2word.length ∧
      v'.word2cnt = v.word2cnt ∧ v'.embed = v.embed) := by
  refine ⟨LenInv_vocabInit, fun v sent fresh h => LenInv_addSentence sent fresh h,
    ?_, ?_⟩
  · intro v v1 h
    obtain ⟨kept, emb, _, _, hc, hv1⟩ := trim_eq_some h
    subst hv1
    exact hc
  · intro v v' b out hwf h
    obtain ⟨hinv, h4, hfw, _⟩ := hwf
    obtain ⟨v1, s0, rest, hr, hst, hv2, hout⟩ := readBatch_eq_some h
    obtain ⟨hinv1, _, hcnt1, hemb1, _, _, _, _, _, _⟩ := resetDyn_spec hinv hfw hr
    obtain ⟨hinv2, _, hcnt2, hemb2, _, _, _, _, _, _⟩ :=
      extendDyn_spec (sortedSrc b) v1 hinv1
    subst hv2
    exact ⟨InvV_length_eq hinv2, hcnt2.trans hcnt1, hemb2.trans hemb1⟩

/-- Witness for the amended C4 at concrete states. -/
theorem c4_parallel_lengths_witness :
    (LenInv exVocab) ∧ LenInv (addSentence exVocab ["a", "z"] [[]]) ∧
    (WfCore exVocab ∧ readBatch exVocab exBatch =
      some (((readBatch exVocab exBatch).getD default).1,
        ((readBatch exVocab exBatch).getD default).2)) ∧
    (((readBatch exVocab exBatch).getD default).1.word2id.length =
      ((readBatch exVocab exBatch).getD default).1.id2word.length ∧
    ((readBatch exVocab exBatch).getD default).1.word2cnt = exVocab.word2cnt ∧
    ((readBatch exVocab exBatch).getD default).1.embed = exVocab.embed) :=
  ⟨by decide,
    c4_parallel_lengths.2.1 exVocab ["a", "z"] [[]] (by decide),
    ⟨by decide, by decide⟩,
    c4_parallel_lengths.2.2.2 exVocab ((readBatch exVocab exBatch).getD default).1
      exBatch ((readBatch exVocab exBatch).getD default).2
      (by decide) (by decide)⟩

/-! ## Claims C7 and C8: memory ownership assertion, truncation, padding -/

theorem except_ok_bind {ε α β : Type} (a : α) (f : α → Except ε β) :
    ((Except.ok a : Except ε α) >>= f) = f a := rfl

theorem except_error_bind {ε α β : Type} (e : ε) (f : α → Except ε β) :
    ((Except.error e : Except ε α) >>= f) = .error e := rfl

theorem except_pure {ε α : Type} (a : α) :
    (pure a : Except ε α) = .ok a := rfl

theorem mapM_ok_spec {ε α β : Type} (f : α → Except ε β) (l : List α)
    (r : List β) (h : l.mapM f = .ok r) :
    r.length = l.length ∧
    ∀ k : ℕ, ∀ a, l[k]? = some a → ∃ val, r[k]? = some val ∧ f a = .ok val := by
  induction l generalizing r with
  | nil =>
    rw [List.mapM_nil, except_pure] at h
    injection h with h
    subst h
    exact ⟨rfl, by intro k a hk; simp at hk⟩
  | cons a l ih =>
    rw [List.mapM_cons] at h
    cases hf : f a with
    | error e =>
      rw [hf, except_error_bind] at h
      injection h
    | ok val =>
      rw [hf, except_ok_bind] at h
      cases hm : l.mapM f with
      | error e =>
        rw [hm, except_error_bind] at h
        injection h
      | ok vals =>
        rw [hm, except_ok_bind, except_pure] at h
        injection h with h
        subst h
        obtain ⟨hlen, hpt⟩ := ih vals hm
        refine ⟨by simp [hlen], ?_⟩
        intro k x hk
        cases k with
        | zero =>
          simp only [List.getElem?_cons_zero, Option.some_inj] at hk
          subst hk
          exact ⟨val, by simp, hf⟩
        | succ k =>
          simp only [List.getElem?_cons_succ] at hk ⊢
          exact hpt k x hk

theorem memRowOf_spec {v : VocabM} {train : List ExampleRec} {cu cp : String}
    {e : MemEntry} {md : ExampleRec} (hmd : train[e.exIdx]? = some md) :
    (memRowOf v train cu cp e = .error .ownershipAssert ↔
      (md.userID ≠ cu ∧ md.productID ≠ cp)) ∧
    ((md.userID = cu ∨ md.productID = cp) →
      memRowOf v train cu cp e = .ok
        { up := [if md.userID = cu then 1 else 0,
                 if md.productID = cp then 1 else 0]
          review := padTokRow v md.reviewText v.args.review_max_len
          summ := padTokRow v md.summary v.args.sum_max_len
          gold := e.gold }) := by
  unfold memRowOf
  simp only [hmd]
  by_cases hcond : md.userID = cu ∨ md.productID = cp
  · rw [if_pos hcond]
    refine ⟨⟨fun h => by injection h, ?_⟩, fun _ => rfl⟩
    rintro ⟨h1, h2⟩
    rcases hcond with h3 | h3
    · exact absurd h3 h1
    · exact absurd h3 h2
  · rw [if_neg hcond]
    rw [not_or] at hcond
    exact ⟨⟨fun _ => hcond, fun _ => rfl⟩, fun hc => absurd hc (by
      rw [not_or]
      exact hcond)⟩

theorem mapM_memRowOf_spec {v : VocabM} {train : List ExampleRec}
    {cu cp : String} (mem : List MemEntry)
    (hin : ∀ e ∈ mem, e.exIdx < train.length) :
    (mem.mapM (memRowOf v train cu cp) = .error .ownershipAssert ↔
      ∃ e ∈ mem, (train[e.exIdx]?.getD default).userID ≠ cu ∧
        (train[e.exIdx]?.getD default).productID ≠ cp) ∧
    ((∀ e ∈ mem, (train[e.exIdx]?.getD default).userID = cu ∨
        (train[e.exIdx]?.getD default).productID = cp) →
      ∃ rows, mem.mapM (memRowOf v train cu cp) = .ok rows ∧
        rows.length = mem.length) := by
  induction mem with
  | nil =>
    constructor
    · rw [List.mapM_nil, except_pure]
      constructor
      · intro h
        injection h
      · rintro ⟨e, he, _⟩
        cases he
    · intro _
      exact ⟨[], by rw [List.mapM_nil, except_pure], rfl⟩
  | cons e es ih =>
    have hine : e.exIdx < train.length := hin e (List.mem_cons_self _ _)
    have hmd : train[e.exIdx]? = some train[e.exIdx] :=
      List.getElem?_eq_getElem hine
    have hgd : train[e.exIdx]?.getD default = train[e.exIdx] := by
      rw [hmd]
      rfl
    obtain ⟨herr, hok⟩ := @memRowOf_spec v train cu cp e _ hmd
    obtain ⟨iherr, ihok⟩ := ih (fun x hx => hin x (List.mem_cons_of_mem _ hx))
    rw [List.mapM_cons]
    by_cases hcond : train[e.exIdx].userID = cu ∨ train[e.exIdx].productID = cp
    · rw [hok hcond, except_ok_bind]
      constructor
      · cases hm : es.mapM (memRowOf v train cu cp) with
        | error err =>
          rw [except_error_bind]
          rw [hm] at iherr
          constructor
          · intro hx
            injection hx with hx
            obtain ⟨f, hf1, hf2⟩ := iherr.mp (by rw [hx])
            exact ⟨f, List.mem_cons_of_mem _ hf1, hf2⟩
          · rintro ⟨f, hf1, hf2⟩
            rcases List.mem_cons.mp hf1 with rfl | hf3
            · rw [hgd] at hf2
              rcases hcond with h3 | h3
              · exact absurd h3 hf2.1
              · exact absurd h3 hf2.2
            · have := iherr.mpr ⟨f, hf3, hf2⟩
              rw [this]
        | ok vals =>
          rw [except_ok_bind, except_pure]
          constructor
          · intro hx
            injection hx
          · rintro ⟨f, hf1, hf2⟩
            rcases List.mem_cons.mp hf1 with rfl | hf3
            · rw [hgd] at hf2
              rcases hcond with h3 | h3
              · exact absurd h3 hf2.1
              · exact absurd h3 hf2.2
            · have := iherr.mpr ⟨f, hf3, hf2⟩
              rw [hm] at this
              injection this
      · intro hall
        obtain ⟨rows, hrows, hlen⟩ :=
          ihok (fun x hx => hall x (List.mem_cons_of_mem _ hx))
        rw [hrows, except_ok_bind, except_pure]
        exact ⟨_, rfl, by simp [hlen]⟩
    · have hmm : train[e.exIdx].userID ≠ cu ∧ train[e.exIdx].productID ≠ cp := by
        rw [not_or] at hcond
        exact hcond
      rw [herr.mpr hmm, except_error_bind]
      constructor
      · constructor
        · intro _
          exact ⟨e, List.mem_cons_self _ _, by rw [hgd]; exact hmm⟩
        · intro _
          rfl
      · intro hall
        have := hall e (List.mem_cons_self _ _)
        rw [hgd] at this
        rcases this with h3 | h3
        · exact absurd h3 hmm.1
        · exact absurd h3 hmm.2

theorem memRowsFor_eq_ok {v : VocabM} {train : List ExampleRec} {b : BatchM}
    {i : ℕ} {rows : List MemRow} (h : memRowsFor v train b i = .ok rows) :
    ∃ real, (retained v b i).mapM (memRowOf v train (memCU b i) (memCP b i)) =
      .ok real ∧
      rows = real ++ List.replicate (v.args.mem_size - (retained v b i).length)
        (padMemRow v.args) := by
  unfold memRowsFor at h
  cases hm : (retained v b i).mapM (memRowOf v train (memCU b i) (memCP b i)) with
  | error e =>
    rw [hm, except_error_bind] at h
    injection h
  | ok real =>
    rw [hm, except_ok_bind, except_pure] at h
    injection h with h
    exact ⟨real, rfl, h.symm⟩

theorem memRowsFor_err {v : VocabM} {train : List ExampleRec} {b : BatchM}
    {i : ℕ} {err : MTErr} (h : memRowsFor v train b i = .error err) :
    (retained v b i).mapM (memRowOf v train (memCU b i) (memCP b i)) =
      .error err := by
  unfold memRowsFor at h
  cases hm : (retained v b i).mapM (memRowOf v train (memCU b i) (memCP b i)) with
  | error e =>
    rw [hm, except_error_bind] at h
    injection h with h
    rw [h]
  | ok real =>
    rw [hm, except_ok_bind, except_pure] at h
    injection h

theorem retained_length_le (v : VocabM) (b : BatchM) (i : ℕ) :
    (retained v b i).length ≤ v.args.mem_size := by
  unfold retained truncMem
  simp [List.length_take]

theorem memRowsFor_spec {v : VocabM} {train : List ExampleRec} {b : BatchM}
    (i : ℕ) (hin : ∀ e ∈ retained v b i, e.exIdx < train.length) :
    (memRowsFor v train b i = .error .ownershipAssert ↔
      ∃ e ∈ retained v b i,
        (train[e.exIdx]?.getD default).userID ≠ memCU b i ∧
        (train[e.exIdx]?.getD default).productID ≠ memCP b i) ∧
    ((∀ e ∈ retained v b i,
        (train[e.exIdx]?.getD default).userID = memCU b i ∨
        (train[e.exIdx]?.getD default).productID = memCP b i) →
      ∃ rows, memRowsFor v train b i = .ok rows ∧
        rows.length = v.args.mem_size) := by
  obtain ⟨herr, hok⟩ := @mapM_memRowOf_spec v train (memCU b i) (memCP b i)
    (retained v b i) hin
  constructor
  · constructor
    · intro h
      exact herr.mp (memRowsFor_err h)
    · intro hex
      unfold memRowsFor
      rw [herr.mpr hex, except_error_bind]
  · intro hall
    obtain ⟨real, hreal, hlen⟩ := hok hall
    refine ⟨real ++ List.replicate (v.args.mem_size - (retained v b i).length)
      (padMemRow v.args), ?_, ?_⟩
    · unfold memRowsFor
      rw [hreal, except_ok_bind, except_pure]
    · have hle := retained_length_le v b i
      simp only [List.length_append, List.length_replicate, hlen]
      omega

theorem memRowsFor_ok_length {v : VocabM} {train : List ExampleRec} {b : BatchM}
    {i : ℕ} {rows : List MemRow} (h : memRowsFor v train b i = .ok rows) :
    rows.length = v.args.mem_size := by
  obtain ⟨real, hreal, hrows⟩ := memRowsFor_eq_ok h
  have hlen := (mapM_ok_spec _ _ _ hreal).1
  have hle := retained_length_le v b i
  subst hrows
  simp only [List.length_append, List.length_replicate, hlen]
  omega

theorem mapM_memRowsFor_err_iff {m : VocabM} {train : List ExampleRec}
    {b : BatchM} (l : List ℕ)
    (hin : ∀ i ∈ l, ∀ e ∈ retained m b i, e.exIdx < train.length) :
    (l.mapM (memRowsFor m train b) = .error .ownershipAssert ↔
      ∃ i ∈ l, ∃ e ∈ retained m b i,
        (train[e.exIdx]?.getD default).userID ≠ memCU b i ∧
        (train[e.exIdx]?.getD default).productID ≠ memCP b i) := by
  induction l with
  | nil =>
    rw [List.mapM_nil, except_pure]
    exact ⟨fun h => by injection h, by rintro ⟨i, hi, _⟩; cases hi⟩
  | cons i is ih =>
    obtain ⟨herr, hok⟩ :=
      @memRowsFor_spec m train b i (hin i (List.mem_cons_self _ _))
    have ih2 := ih (fun x hx => hin x (List.mem_cons_of_mem _ hx))
    rw [List.mapM_cons]
    by_cases hcond : ∀ e ∈ retained m b i,
        (train[e.exIdx]?.getD default).userID = memCU b i ∨
        (train[e.exIdx]?.getD default).productID = memCP b i
    · obtain ⟨rows, hrows, _⟩ := hok hcond
      rw [hrows, except_ok_bind]
      cases hm : is.mapM (memRowsFor m train b) with
      | error err =>
        rw [except_error_bind]
        rw [hm] at ih2
        constructor
        · intro hx
          injection hx with hx
          obtain ⟨j, hj, hjj⟩ := ih2.mp (by rw [hx])
          exact ⟨j, List.mem_cons_of_mem _ hj, hjj⟩
        · rintro ⟨j, hj, e, hje, hmm⟩
          rcases List.mem_cons.mp hj with rfl | hj2
          · rcases hcond e hje with h3 | h3
            · exact absurd h3 hmm.1
            · exact absurd h3 hmm.2
          · exact ih2.mpr ⟨j, hj2, e, hje, hmm⟩
      | ok rest =>
        rw [except_ok_bind, except_pure]
        constructor
        · intro hx
          injection hx
        · rintro ⟨j, hj, e, hje, hmm⟩
          rcases List.mem_cons.mp hj with rfl | hj2
          · rcases hcond e hje with h3 | h3
            · exact absurd h3 hmm.1
            · exact absurd h3 hmm.2
          · have := ih2.mpr ⟨j, hj2, e, hje, hmm⟩
            rw [hm] at this
            injection this
    · push_neg at hcond
      obtain ⟨e, he, hmm⟩ := hcond
      rw [herr.mpr ⟨e, he, hmm⟩, except_error_bind]
      constructor
      · intro _
        exact ⟨i, List.mem_cons_self _ _, e, he, hmm⟩
      · intro _
        rfl

/-- C7: make_tensors raises the ownership assertion exactly when some memory
entry retained after score ranking and truncation to capacity references a
corpus example whose user differs from the current example user and whose
product also differs from the current example product; on that failure no
tensors are produced. -/
theorem c7_ownership_assert {m : VocabM} {b : BatchM} {train : List ExampleRec}
    (hne : sortedSrcM b ≠ [])
    (hin : ∀ i ∈ batchIdxM b, ∀ e ∈ retained m b i, e.exIdx < train.length) :
    (makeTensors m b train = .error .ownershipAssert ↔
      ∃ i ∈ batchIdxM b, ∃ e ∈ retained m b i,
        (train[e.exIdx]?.getD default).userID ≠ memCU b i ∧
        (train[e.exIdx]?.getD default).productID ≠ memCP b i) ∧
    (makeTensors m b train = .error .ownershipAssert →
      ∀ outm : MTOut, makeTensors m b train ≠ .ok outm) := by
  have hmain : makeTensors m b train = .error .ownershipAssert ↔
      (batchIdxM b).mapM (memRowsFor m train b) = .error .ownershipAssert := by
    unfold makeTensors
    cases hst : sortedSrcM b with
    | nil => exact absurd hst hne
    | cons s0 rest =>
      cases hm : (batchIdxM b).mapM (memRowsFor m train b) with
      | error e =>
        constructor
        · intro hx
          injection hx with hx2
          rw [hx2]
        · intro hx
          injection hx with hx2
          subst hx2
          rfl
      | ok rowsL =>
        constructor
        · intro hx
          injection hx
        · intro hx
          injection hx
  refine ⟨hmain.trans (mapM_memRowsFor_err_iff _ hin), ?_⟩
  intro herr outm hok
  rw [hok] at herr
  injection herr

theorem length_flatten_const {α : Type} (L : List (List α)) (c : ℕ)
    (h : ∀ x ∈ L, x.length = c) : L.flatten.length = L.length * c := by
  induction L with
  | nil => simp
  | cons x xs ih =>
    rw [List.flatten_cons, List.length_append, h x (List.mem_cons_self _ _),
      ih (fun y hy => h y (List.mem_cons_of_mem _ hy)), List.length_cons]
    ring

/-- C8: make_tensors emits exactly mem_size memory rows per example (so each
flat memory tensor has batch-size times mem_size rows); the retained entries
are the first mem_size of the score-descending stable sort of the
concatenated product and user memories, hence sorted by descending score,
numbering min(total, mem_size), and every retained score is at least every
dropped score; a shortfall is filled with placeholder rows carrying zero
ownership flags, zero gold label and PAD-filled review and summary ids. -/
theorem c8_memory_truncation_padding {m : VocabM} {b : BatchM}
    {train : List ExampleRec} {outm : MTOut}
    (h : makeTensors m b train = .ok outm) :
    outm.mem_up.length = (batchIdxM b).length * m.args.mem_size ∧
    outm.mem_review.length = (batchIdxM b).length * m.args.mem_size ∧
    outm.mem_sum.length = (batchIdxM b).length * m.args.mem_size ∧
    outm.mem_gold.length = (batchIdxM b).length * m.args.mem_size ∧
    (∀ i : ℕ,
      (retained m b i).Pairwise (fun p q : MemEntry => q.score ≤ p.score) ∧
      (retained m b i).length =
        min ((b.product_review[i]?.getD []) ++ (b.user_review[i]?.getD [])).length
          m.args.mem_size ∧
      (∀ e ∈ retained m b i,
        ∀ f ∈ (List.insertionSort (fun p q : MemEntry => q.score ≤ p.score)
          ((b.product_review[i]?.getD []) ++ (b.user_review[i]?.getD []))).drop
            m.args.mem_size, f.score ≤ e.score) ∧
      (retained m b i ++
        (List.insertionSort (fun p q : MemEntry => q.score ≤ p.score)
          ((b.product_review[i]?.getD []) ++ (b.user_review[i]?.getD []))).drop
            m.args.mem_size).Perm
        ((b.product_review[i]?.getD []) ++ (b.user_review[i]?.getD []))) ∧
    (∀ (i : ℕ) (rows : List MemRow), memRowsFor m train b i = .ok rows →
      rows.length = m.args.mem_size ∧
      ∃ real, real.length = (retained m b i).length ∧
        rows = real ++ List.replicate (m.args.mem_size - (retained m b i).length)
          (padMemRow m.args)) := by
  obtain ⟨s0, rest, rowsL, hst, hmm, houtm⟩ := makeTensors_eq_ok h
  have hrows_len : ∀ x ∈ rowsL, x.length = m.args.mem_size := by
    intro x hx
    obtain ⟨k, hk⟩ := List.getElem?_of_mem hx
    obtain ⟨hlenL, hpt⟩ := mapM_ok_spec _ _ _ hmm
    have hklt : k < (batchIdxM b).length := by
      rw [← hlenL]
      exact (List.getElem?_eq_some.mp hk).1
    obtain ⟨val, hval, hfa⟩ := hpt k (batchIdxM b)[k]
      (List.getElem?_eq_getElem hklt)
    rw [hk] at hval
    injection hval with hval
    subst hval
    exact memRowsFor_ok_length hfa
  have hflat : rowsL.flatten.length = (batchIdxM b).length * m.args.mem_size := by
    rw [length_flatten_const rowsL m.args.mem_size hrows_len,
      (mapM_ok_spec _ _ _ hmm).1]
  subst houtm
  have hsortfacts : ∀ i : ℕ,
      (retained m b i).Pairwise (fun p q : MemEntry => q.score ≤ p.score) ∧
      (retained m b i).length =
        min ((b.product_review[i]?.getD []) ++ (b.user_review[i]?.getD [])).length
          m.args.mem_size ∧
      (∀ e ∈ retained m b i,
        ∀ f ∈ (List.insertionSort (fun p q : MemEntry => q.score ≤ p.score)
          ((b.product_review[i]?.getD []) ++ (b.user_review[i]?.getD []))).drop
            m.args.mem_size, f.score ≤ e.score) ∧
      (retained m b i ++
        (List.insertionSort (fun p q : MemEntry => q.score ≤ p.score)
          ((b.product_review[i]?.getD []) ++ (b.user_review[i]?.getD []))).drop
            m.args.mem_size).Perm
        ((b.product_review[i]?.getD []) ++ (b.user_review[i]?.getD [])) := by
    intro i
    haveI : IsTotal MemEntry (fun p q : MemEntry => q.score ≤ p.score) :=
      ⟨fun a c => le_total _ _⟩
    haveI : IsTrans MemEntry (fun p q : MemEntry => q.score ≤ p.score) :=
      ⟨fun a c d h1 h2 => le_trans h2 h1⟩
    have hsorted := List.sorted_insertionSort
      (fun p q : MemEntry => q.score ≤ p.score)
      ((b.product_review[i]?.getD []) ++ (b.user_review[i]?.getD []))
    have hsplit := List.take_append_drop m.args.mem_size
      (List.insertionSort (fun p q : MemEntry => q.score ≤ p.score)
        ((b.product_review[i]?.getD []) ++ (b.user_review[i]?.getD [])))
    have hret : retained m b i = (List.insertionSort
        (fun p q : MemEntry => q.score ≤ p.score)
        ((b.product_review[i]?.getD []) ++ (b.user_review[i]?.getD []))).take
          m.args.mem_size := rfl
    refine ⟨?_, ?_, ?_, ?_⟩
    · rw [hret]
      exact hsorted.sublist (List.take_sublist _ _)
    · rw [hret, List.length_take, List.length_insertionSort, Nat.min_comm]
    · intro e he f hf
      have := List.pairwise_append.mp (hsplit ▸ hsorted)
      exact this.2.2 e (hret ▸ he) f hf
    · rw [hret, hsplit]
      exact List.perm_insertionSort _ _
  refine ⟨?_, ?_, ?_, ?_, hsortfacts, ?_⟩
  · rw [List.length_map]
    exact hflat
  · rw [List.length_map]
    exact hflat
  · rw [List.length_map]
    exact hflat
  · rw [List.length_map]
    exact hflat
  · intro i rows hrows
    obtain ⟨real, hreal, hr⟩ := memRowsFor_eq_ok hrows
    exact ⟨memRowsFor_ok_length hrows,
      real, (mapM_ok_spec _ _ _ hreal).1, hr⟩

/-- Witness for C7 on a batch whose single memory entry matches neither the
current user nor the current product. -/
theorem c7_ownership_assert_witness :
    (sortedSrcM exBatchMBad ≠ []) ∧
    (∀ i ∈ batchIdxM exBatchMBad, ∀ e ∈ retained exVocabM exBatchMBad i,
      e.exIdx < exTrain.length) ∧
    ((makeTensors exVocabM exBatchMBad exTrain = .error .ownershipAssert ↔
      ∃ i ∈ batchIdxM exBatchMBad, ∃ e ∈ retained exVocabM exBatchMBad i,
        (exTrain[e.exIdx]?.getD default).userID ≠ memCU exBatchMBad i ∧
        (exTrain[e.exIdx]?.getD default).productID ≠ memCP exBatchMBad i) ∧
    (makeTensors exVocabM exBatchMBad exTrain = .error .ownershipAssert →
      ∀ outm : MTOut, makeTensors exVocabM exBatchMBad exTrain ≠ .ok outm)) :=
  ⟨by decide, by decide,
    @c7_ownership_assert exVocabM exBatchMBad exTrain (by decide) (by decide)⟩

/-- Witness for C8 on a batch with three memory entries against capacity 2. -/
theorem c8_memory_truncation_padding_witness :
    (makeTensors exVocabM exBatchM exTrain =
      .ok ((makeTensors exVocabM exBatchM exTrain).toOption.getD default)) ∧
    (((makeTensors exVocabM exBatchM exTrain).toOption.getD default).mem_up.length =
      (batchIdxM exBatchM).length * exVocabM.args.mem_size ∧
    ((makeTensors exVocabM exBatchM exTrain).toOption.getD default).mem_review.length =
      (batchIdxM exBatchM).length * exVocabM.args.mem_size ∧
    ((makeTensors exVocabM exBatchM exTrain).toOption.getD default).mem_sum.length =
      (batchIdxM exBatchM).length * exVocabM.args.mem_size ∧
    ((makeTensors exVocabM exBatchM exTrain).toOption.getD default).mem_gold.length =
      (batchIdxM exBatchM).length * exVocabM.args.mem_size ∧
    (∀ i : ℕ,
      (retained exVocabM exBatchM i).Pairwise
        (fun p q : MemEntry => q.score ≤ p.score) ∧
      (retained exVocabM exBatchM i).length =
        min ((exBatchM.product_review[i]?.getD []) ++
          (exBatchM.user_review[i]?.getD [])).length exVocabM.args.mem_size ∧
      (∀ e ∈ retained exVocabM exBatchM i,
        ∀ f ∈ (List.insertionSort (fun p q : MemEntry => q.score ≤ p.score)
          ((exBatchM.product_review[i]?.getD []) ++
            (exBatchM.user_review[i]?.getD []))).drop exVocabM.args.mem_size,
          f.score ≤ e.score) ∧
      (retained exVocabM exBatchM i ++
        (List.insertionSort (fun p q : MemEntry => q.score ≤ p.score)
          ((exBatchM.product_review[i]?.getD []) ++
            (exBatchM.user_review[i]?.getD []))).drop
              exVocabM.args.mem_size).Perm
        ((exBatchM.product_review[i]?.getD []) ++
          (exBatchM.user_review[i]?.getD []))) ∧
    (∀ (i : ℕ) (rows : List MemRow),
      memRowsFor exVocabM exTrain exBatchM i = .ok rows →
      rows.length = exVocabM.args.mem_size ∧
      ∃ real, real.length = (retained exVocabM exBatchM i).length ∧
        rows = real ++ List.replicate
          (exVocabM.args.mem_size - (retained exVocabM exBatchM i).length)
          (padMemRow exVocabM.args))) :=
  ⟨by decide,
    @c8_memory_truncation_padding exVocabM exBatchM exTrain
      ((makeTensors exVocabM exBatchM exTrain).toOption.getD default)
      (by decide)⟩

/-! ## Claim C5: trim idempotence and reserved-token survival -/

theorem length_dinsert {κ β : Type} [DecidableEq κ] (d : List (κ × β)) (k : κ)
    (v : β) : (dinsert d k v).length =
      if k ∈ dkeys d then d.length else d.length + 1 := by
  unfold dinsert
  by_cases h : k ∈ dkeys d
  · rw [if_pos (alookup_isSome_iff.mpr h), if_pos h]
    exact List.length_map _ _
  · rw [if_neg (fun hs => h (alookup_isSome_iff.mp hs)), if_neg h]
    simp

theorem dkeys_dinsert {κ β : Type} [DecidableEq κ] (d : List (κ × β)) (k : κ)
    (v : β) : dkeys (dinsert d k v) =
      if k ∈ dkeys d then dkeys d else dkeys d ++ [k] := by
  unfold dinsert
  by_cases h : k ∈ dkeys d
  · rw [if_pos (alookup_isSome_iff.mpr h), if_pos h]
    unfold dkeys
    rw [List.map_map]
    apply List.map_congr_left
    intro p _
    by_cases hp : p.1 = k <;> simp [hp]
  · rw [if_neg (fun hs => h (alookup_isSome_iff.mp hs)), if_neg h, dkeys_append]
    rfl

theorem trimKept_min {v : Vocab} (l : List ℕ) (kept : List (ℕ × String × ℕ))
    (h : trimKept v l = some kept) :
    ∀ t ∈ kept, v.args.word_min_cnt ≤ t.2.2 := by
  induction l generalizing kept with
  | nil =>
    unfold trimKept at h
    injection h with h
    subst h
    intro t ht
    cases ht
  | cons i is ih =>
    unfold trimKept at h
    cases hw : alookup v.id2word i with
    | none =>
      rw [hw] at h
      cases h
    | some w =>
      rw [hw] at h
      simp only [Option.bind_eq_bind, Option.some_bind] at h
      cases hc : alookup v.word2cnt w with
      | none =>
        rw [hc] at h
        cases h
      | some c =>
        rw [hc] at h
        simp only [Option.some_bind] at h
        cases hrest : trimKept v is with
        | none =>
          rw [hrest] at h
          cases h
        | some rest =>
          rw [hrest] at h
          simp only [Option.some_bind, Option.pure_def, Option.some_inj] at h
          subst h
          intro t ht
          split at ht
          · rcases List.mem_cons.mp ht with rfl | ht2
            · assumption
            · exact ih rest hrest t ht2
          · exact ih rest hrest t ht

theorem trimKept_mem {v : Vocab} (l : List ℕ) (kept : List (ℕ × String × ℕ))
    (h : trimKept v l = some kept) :
    ∀ i ∈ l, ∀ w c, alookup v.id2word i = some w →
      alookup v.word2cnt w = some c → v.args.word_min_cnt ≤ c →
      (i, w, c) ∈ kept := by
  induction l generalizing kept with
  | nil =>
    intro i hi
    cases hi
  | cons j js ih =>
    unfold trimKept at h
    cases hw : alookup v.id2word j with
    | none =>
      rw [hw] at h
      cases h
    | some w0 =>
      rw [hw] at h
      simp only [Option.bind_eq_bind, Option.some_bind] at h
      cases hc : alookup v.word2cnt w0 with
      | none =>
        rw [hc] at h
        cases h
      | some c0 =>
        rw [hc] at h
        simp only [Option.some_bind] at h
        cases hrest : trimKept v js with
        | none =>
          rw [hrest] at h
          cases h
        | some rest =>
          rw [hrest] at h
          simp only [Option.some_bind, Option.pure_def, Option.some_inj] at h
          subst h
          intro i hi w c hiw hic hmin
          rcases List.mem_cons.mp hi with rfl | hi2
          · rw [hw] at hiw
            injection hiw with hiw
            subst hiw
            rw [hc] at hic
            injection hic with hic
            subst hic
            rw [if_pos hmin]
            exact List.mem_cons_self _ _
          · have hmem := ih rest hrest i hi2 w c hiw hic hmin
            split
            · exact List.mem_cons_of_mem _ hmem
            · exact hmem

theorem trimKept_compute {v : Vocab} (l : List ℕ)
    (h : ∀ i ∈ l, ∃ w c, alookup v.id2word i = some w ∧
      alookup v.word2cnt w = some c ∧ v.args.word_min_cnt ≤ c) :
    trimKept v l = some (l.map (fun i => (i, (alookup v.id2word i).getD "",
      (alookup v.word2cnt ((alookup v.id2word i).getD "")).getD 0))) := by
  induction l with
  | nil => rfl
  | cons i is ih =>
    obtain ⟨w, c, hw, hc, hmin⟩ := h i (List.mem_cons_self _ _)
    unfold trimKept
    rw [hw]
    simp only [Option.bind_eq_bind, Option.some_bind]
    rw [hc]
    simp only [Option.some_bind]
    rw [ih (fun j hj => h j (List.mem_cons_of_mem _ hj))]
    simp only [Option.some_bind, Option.pure_def, Option.some_inj, if_pos hmin]
    rw [List.map_cons]
    simp [hw, hc]

theorem mapM_map_option {α β γ : Type} (g : α → β) (f : β → Option γ)
    (l : List α) : List.mapM f (l.map g) = List.mapM (fun a => f (g a)) l := by
  induction l with
  | nil => rfl
  | cons a t ih =>
    rw [List.map_cons, List.mapM_cons, List.mapM_cons, ih]

theorem mapM_getElem_range {α : Type} (l : List α) :
    List.mapM (fun i => l[i]?) (List.range l.length) = some l := by
  induction l with
  | nil => rfl
  | cons a t ih =>
    rw [List.length_cons, List.range_succ_eq_map, List.mapM_cons,
      mapM_map_option]
    have hf : List.mapM (fun i => (a :: t)[i.succ]?) (List.range t.length)
        = List.mapM (fun i => t[i]?) (List.range t.length) := by
      apply congrArg (fun f => List.mapM f (List.range t.length))
      funext i
      simp
    rw [hf, ih]
    simp

theorem mapM_option_length {α β : Type} (f : α → Option β) (l : List α)
    (r : List β) (h : List.mapM f l = some r) : r.length = l.length := by
  induction l generalizing r with
  | nil =>
    rw [List.mapM_nil] at h
    injection h with h
    subst h
    rfl
  | cons a t ih =>
    rw [List.mapM_cons] at h
    cases hf : f a with
    | none =>
      rw [hf] at h
      cases h
    | some v =>
      rw [hf] at h
      cases hm : List.mapM f t with
      | none =>
        rw [hm] at h
        cases h
      | some vs =>
        rw [hm] at h
        simp only [Option.bind_eq_bind, Option.some_bind, Option.pure_def,
          Option.some_inj] at h
        subst h
        simp [ih vs hm]

theorem cleanBuild_cons (t : ℕ × String × ℕ) (ts : List (ℕ × String × ℕ))
    (n : ℕ) :
    cleanBuild (t :: ts) n = ((t.2.1, n) :: (cleanBuild ts (n + 1)).1,
      (n, t.2.1) :: (cleanBuild ts (n + 1)).2.1,
      (t.2.1, t.2.2) :: (cleanBuild ts (n + 1)).2.2) := rfl

theorem alookup_cons {κ β : Type} [DecidableEq κ] (p : κ × β)
    (d : List (κ × β)) (k : κ) :
    alookup (p :: d) k = if p.1 = k then some p.2 else alookup d k := by
  unfold alookup
  by_cases h : p.1 = k
  · rw [List.find?_cons_of_pos _ (by simpa using h), if_pos h]
    rfl
  · rw [List.find?_cons_of_neg _ (by simpa using h), if_neg h]

theorem cleanBuild_i2w_lookup (kept : List (ℕ × String × ℕ)) (n j : ℕ)
    (hj : j < kept.length) :
    alookup (cleanBuild kept n).2.1 (n + j) =
      some ((kept[j]?.getD default).2.1) := by
  induction kept generalizing n j with
  | nil => simp at hj
  | cons t ts ih =>
    cases j with
    | zero =>
      simp only [cleanBuild_cons, alookup_cons]
      simp
    | succ j =>
      have hj2 : j < ts.length := by
        simpa using hj
      simp only [cleanBuild_cons, alookup_cons]
      rw [if_neg (by omega)]
      rw [show n + (j + 1) = n + 1 + j by omega, ih (n + 1) j hj2]
      simp

theorem cleanBuild_w2c_lookup (kept : List (ℕ × String × ℕ)) (n j : ℕ)
    (hnd : (kept.map (fun t => t.2.1)).Nodup) (hj : j < kept.length) :
    alookup (cleanBuild kept n).2.2 ((kept[j]?.getD default).2.1) =
      some ((kept[j]?.getD default).2.2) := by
  induction kept generalizing n j with
  | nil => simp at hj
  | cons t ts ih =>
    rw [List.map_cons, List.nodup_cons] at hnd
    cases j with
    | zero =>
      simp only [cleanBuild_cons, alookup_cons]
      simp
    | succ j =>
      have hj2 : j < ts.length := by
        simpa using hj
      have hne : ¬ t.2.1 = ((t :: ts)[j + 1]?.getD default).2.1 := by
        simp only [List.getElem?_cons_succ]
        intro hc
        apply hnd.1
        have hmem : ts[j]?.getD default ∈ ts := by
          rw [List.getElem?_eq_getElem hj2]
          exact List.getElem_mem _
        rw [hc]
        exact List.mem_map_of_mem _ hmem
      simp only [cleanBuild_cons, alookup_cons]
      rw [if_neg hne]
      simp only [List.getElem?_cons_succ]
      exact ih (n + 1) j hnd.2 hj2

theorem trimStep_eq (a : List (String × ℕ)) (b : List (ℕ × String))
    (c : List (String × ℕ)) (n : ℕ) (t : ℕ × String × ℕ) :
    trimStep (a, b, c, n) t =
      (dinsert a t.2.1 n, dinsert b n t.2.1, dinsert c t.2.1 t.2.2, n + 1) := rfl

theorem trimBuild_go_clean (kept : List (ℕ × String × ℕ))
    (a : List (String × ℕ)) (b : List (ℕ × String)) (c : List (String × ℕ))
    (n : ℕ)
    (hnd : (kept.map (fun t => t.2.1)).Nodup)
    (hfa : ∀ t ∈ kept, t.2.1 ∉ dkeys a)
    (hfc : ∀ t ∈ kept, t.2.1 ∉ dkeys c)
    (hb : ∀ k ∈ dkeys b, k < n) :
    kept.foldl trimStep (a, b, c, n) =
      (a ++ (cleanBuild kept n).1, b ++ (cleanBuild kept n).2.1,
        c ++ (cleanBuild kept n).2.2, n + kept.length) := by
  induction kept generalizing a b c n with
  | nil => simp [cleanBuild]
  | cons t ts ih =>
    rw [List.map_cons, List.nodup_cons] at hnd
    rw [List.foldl_cons, trimStep_eq]
    rw [dinsert_of_not_mem _ (hfa t (List.mem_cons_self _ _)),
      dinsert_of_not_mem _ (fun hc => absurd (hb n hc) (lt_irrefl n)),
      dinsert_of_not_mem _ (hfc t (List.mem_cons_self _ _))]
    have hmemts : ∀ u ∈ ts, u.2.1 ≠ t.2.1 := by
      intro u hu hc
      exact hnd.1 (hc ▸ List.mem_map_of_mem _ hu)
    rw [ih (a ++ [(t.2.1, n)]) (b ++ [(n, t.2.1)]) (c ++ [(t.2.1, t.2.2)]) (n + 1)
      hnd.2 ?_ ?_ ?_]
    · rw [cleanBuild_cons]
      simp only [List.append_assoc, List.singleton_append, List.cons_append,
        List.length_cons, Prod.mk.injEq, List.nil_append]
      refine ⟨trivial, trivial, trivial, by omega⟩
    · intro u hu
      rw [dkeys_append]
      intro hc
      rcases List.mem_append.mp hc with h1 | h1
      · exact hfa u (List.mem_cons_of_mem _ hu) h1
      · simp only [dkeys, List.map_cons, List.map_nil, List.mem_singleton] at h1
        exact hmemts u hu h1
    · intro u hu
      rw [dkeys_append]
      intro hc
      rcases List.mem_append.mp hc with h1 | h1
      · exact hfc u (List.mem_cons_of_mem _ hu) h1
      · simp only [dkeys, List.map_cons, List.map_nil, List.mem_singleton] at h1
        exact hmemts u hu h1
    · intro k hk
      rw [dkeys_append] at hk
      rcases List.mem_append.mp hk with h1 | h1
      · exact Nat.lt_succ_of_lt (hb k h1)
      · simp only [dkeys, List.map_cons, List.map_nil, List.mem_singleton] at h1
        omega

theorem trimBuild_go_i2w_len (kept : List (ℕ × String × ℕ))
    (a : List (String × ℕ)) (b : List (ℕ × String)) (c : List (String × ℕ))
    (n : ℕ) (hb : ∀ k ∈ dkeys b, k < n) :
    (kept.foldl trimStep (a, b, c, n)).2.1.length = b.length + kept.length := by
  induction kept generalizing a b c n with
  | nil => simp
  | cons t ts ih =>
    rw [List.foldl_cons, trimStep_eq]
    have h1 : n ∉ dkeys b := fun hc => absurd (hb n hc) (lt_irrefl n)
    rw [ih (dinsert a t.2.1 n) (dinsert b n t.2.1) (dinsert c t.2.1 t.2.2) (n + 1)
      ?_]
    · rw [length_dinsert, if_neg h1, List.length_cons]
      omega
    · intro k hk
      rw [dkeys_dinsert, if_neg h1] at hk
      rcases List.mem_append.mp hk with h2 | h2
      · exact Nat.lt_succ_of_lt (hb k h2)
      · simp only [List.mem_singleton] at h2
        omega

theorem trimBuild_go_w2i_len_le (kept : List (ℕ × String × ℕ))
    (a : List (String × ℕ)) (b : List (ℕ × String)) (c : List (String × ℕ))
    (n : ℕ) :
    (kept.foldl trimStep (a, b, c, n)).1.length ≤ a.length + kept.length := by
  induction kept generalizing a b c n with
  | nil => simp
  | cons t ts ih =>
    rw [List.foldl_cons, trimStep_eq]
    have := ih (dinsert a t.2.1 n) (dinsert b n t.2.1) (dinsert c t.2.1 t.2.2)
      (n + 1)
    have hd : (dinsert a t.2.1 n).length ≤ a.length + 1 := by
      rw [length_dinsert]
      split <;> omega
    rw [List.length_cons]
    omega

theorem trimBuild_go_w2i_nodup (kept : List (ℕ × String × ℕ))
    (a : List (String × ℕ)) (b : List (ℕ × String)) (c : List (String × ℕ))
    (n : ℕ)
    (h : (kept.foldl trimStep (a, b, c, n)).1.length = a.length + kept.length) :
    (kept.map (fun t => t.2.1)).Nodup ∧ ∀ t ∈ kept, t.2.1 ∉ dkeys a := by
  induction kept generalizing a b c n with
  | nil => simp
  | cons t ts ih =>
    rw [List.foldl_cons, trimStep_eq] at h
    by_cases hmem : t.2.1 ∈ dkeys a
    · exfalso
      have hle := trimBuild_go_w2i_len_le ts (dinsert a t.2.1 n)
        (dinsert b n t.2.1) (dinsert c t.2.1 t.2.2) (n + 1)
      rw [length_dinsert, if_pos hmem] at hle
      rw [List.length_cons] at h
      omega
    · have hlen : (dinsert a t.2.1 n).length = a.length + 1 := by
        rw [length_dinsert, if_neg hmem]
      have h2 : (ts.foldl trimStep (dinsert a t.2.1 n, dinsert b n t.2.1,
          dinsert c t.2.1 t.2.2, n + 1)).1.length =
          (dinsert a t.2.1 n).length + ts.length := by
        rw [hlen]
        rw [List.length_cons] at h
        omega
      obtain ⟨hnd, hfa⟩ := ih (dinsert a t.2.1 n) (dinsert b n t.2.1)
        (dinsert c t.2.1 t.2.2) (n + 1) h2
      have hkeys : dkeys (dinsert a t.2.1 n) = dkeys a ++ [t.2.1] := by
        rw [dkeys_dinsert, if_neg hmem]
      constructor
      · rw [List.map_cons, List.nodup_cons]
        refine ⟨?_, hnd⟩
        intro hc
        obtain ⟨u, hu, huw⟩ := List.mem_map.mp hc
        apply hfa u hu
        rw [hkeys]
        apply List.mem_append_right
        simp [huw]
      · intro u hu
        rcases List.mem_cons.mp hu with rfl | hu2
        · exact hmem
        · intro hc
          apply hfa u hu2
          rw [hkeys]
          exact List.mem_append_left _ hc

theorem cleanBuild_map_snd_congr (k1 k2 : List (ℕ × String × ℕ)) (n : ℕ)
    (h : k1.map (fun t => t.2) = k2.map (fun t => t.2)) :
    cleanBuild k1 n = cleanBuild k2 n := by
  induction k1 generalizing k2 n with
  | nil =>
    cases k2 with
    | nil => rfl
    | cons u us => simp at h
  | cons t ts ih =>
    cases k2 with
    | nil => simp at h
    | cons u us =>
      simp only [List.map_cons, List.cons.injEq] at h
      rw [cleanBuild_cons, cleanBuild_cons, h.1, ih us (n + 1) h.2]

theorem cleanBuild_w2i_keys (kept : List (ℕ × String × ℕ)) (n : ℕ) :
    dkeys (cleanBuild kept n).1 = kept.map (fun t => t.2.1) := by
  induction kept generalizing n with
  | nil => rfl
  | cons t ts ih =>
    have ih2 := ih (n + 1)
    simp only [dkeys] at ih2 ⊢
    simp only [cleanBuild_cons, List.map_cons]
    rw [ih2]

theorem trim_forward (v : Vocab) (kept : List (ℕ × String × ℕ))
    (emb : List (List ℚ))
    (hk : trimKept v (List.range v.word_num) = some kept)
    (he : List.mapM (fun i => v.embed[i]?) (kept.map (fun t => t.1)) = some emb)
    (hcond : (trimBuild kept).1.length = (trimBuild kept).2.1.length ∧
      (trimBuild kept).2.1.length = (trimBuild kept).2.2.1.length ∧
      (trimBuild kept).2.2.1.length = emb.length) :
    trim v = some { v with
      word2id := (trimBuild kept).1, id2word := (trimBuild kept).2.1,
      word2cnt := (trimBuild kept).2.2.1, embed := emb,
      word_num := (trimBuild kept).2.2.2,
      fixed_num := (trimBuild kept).2.2.2 } := by
  unfold trim
  rw [hk]
  simp only [Option.bind_eq_bind, Option.some_bind]
  rw [show (kept.map (fun t => t.1)).mapM (fun i => v.embed[i]?) =
    List.mapM (fun i => v.embed[i]?) (kept.map (fun t => t.1)) from rfl, he]
  simp only [Option.some_bind]
  rw [if_pos hcond]
  rfl

theorem trim_success_struct {v v1 : Vocab} (h : trim v = some v1) :
    ∃ kept emb, trimKept v (List.range v.word_num) = some kept ∧
      List.mapM (fun i => v.embed[i]?) (kept.map (fun t => t.1)) = some emb ∧
      (kept.map (fun t => t.2.1)).Nodup ∧
      emb.length = kept.length ∧
      v1.word2id = (cleanBuild kept 0).1 ∧
      v1.id2word = (cleanBuild kept 0).2.1 ∧
      v1.word2cnt = (cleanBuild kept 0).2.2 ∧
      v1.embed = emb ∧
      v1.word_num = kept.length ∧
      v1.fixed_num = kept.length ∧
      v1.args = v.args ∧
      (cleanBuild kept 0).1.length = (cleanBuild kept 0).2.1.length ∧
      (cleanBuild kept 0).2.1.length = (cleanBuild kept 0).2.2.length ∧
      (cleanBuild kept 0).2.2.length = emb.length := by
  obtain ⟨kept, emb, hk, he, hc, hv1⟩ := trim_eq_some h
  have hbnil : ∀ k ∈ dkeys ([] : List (ℕ × String)), k < 0 := by
    intro k hk2
    simp [dkeys] at hk2
  have hi2wlen : (trimBuild kept).2.1.length = kept.length := by
    have h0 := trimBuild_go_i2w_len kept [] [] [] 0 hbnil
    simpa [trimBuild] using h0
  have hnd : (kept.map (fun t => t.2.1)).Nodup := by
    have h0 : (kept.foldl trimStep ([], [], [], 0)).1.length =
        ([] : List (String × ℕ)).length + kept.length := by
      have h1 : (trimBuild kept).1.length = kept.length := by
        rw [hc.1, hi2wlen]
      simpa [trimBuild] using h1
    exact (trimBuild_go_w2i_nodup kept [] [] [] 0 h0).1
  have hTB : trimBuild kept = ((cleanBuild kept 0).1, (cleanBuild kept 0).2.1,
      (cleanBuild kept 0).2.2, kept.length) := by
    have h0 := trimBuild_go_clean kept [] [] [] 0 hnd
      (by intro t ht; simp [dkeys]) (by intro t ht; simp [dkeys]) hbnil
    simpa [trimBuild] using h0
  have hembl : emb.length = kept.length := by
    have h0 := mapM_option_length _ _ _ he
    rwa [List.length_map] at h0
  have hcl : (cleanBuild kept 0).1.length = (cleanBuild kept 0).2.1.length ∧
      (cleanBuild kept 0).2.1.length = (cleanBuild kept 0).2.2.length ∧
      (cleanBuild kept 0).2.2.length = emb.length := by
    rw [hTB] at hc
    exact hc
  refine ⟨kept, emb, hk, he, hnd, hembl, ?_, ?_, ?_, ?_, ?_, ?_, ?_,
    hcl.1, hcl.2.1, hcl.2.2⟩
  · rw [hv1, hTB]
  · rw [hv1, hTB]
  · rw [hv1, hTB]
  · rw [hv1]
  · rw [hv1, hTB]
  · rw [hv1, hTB]
  · rw [hv1]

/-- C5 counterexample: the reserved tokens are stored with count 10000, so
with threshold word_min_cnt = 10001 a successful trim removes all four
reserved tokens and empties the vocabulary entirely. -/
theorem c5_reserved_survival_cex :
    (trim exVocabHi).isSome ∧
    ((trim exVocabHi).getD default).word2id = [] ∧
    ((trim exVocabHi).getD default).word_num = 0 := by
  decide

/-- C5 amended: trim is idempotent for every vocabulary state and every
threshold — whenever a first trim succeeds, running trim again on the
result returns it unchanged; but reserved-token survival does not hold for
every threshold value: it holds (under the structural invariant and the
constructor's reserved count of 10000) exactly when word_min_cnt ≤ 10000,
and the counterexample shows threshold 10001 deletes all four reserved
tokens. -/
theorem c5_trim_idempotence_and_reserved :
    (∀ v v1 : Vocab, trim v = some v1 → trim v1 = some v1) ∧
    (∀ v v1 : Vocab, WfCore v → reservedCntOk v →
      v.args.word_min_cnt ≤ 10000 → trim v = some v1 →
      ∀ w ∈ ["<PAD>", "<SOS>", "<EOS>", "<UNK>"], w ∈ dkeys v1.word2id) := by
  constructor
  · intro v v1 h
    obtain ⟨kept, emb, hk, he, hnd, hembl, hw2i, hi2w, hw2c, hemb, hwn, hfn,
      hargs, hl1, hl2, hl3⟩ := trim_success_struct h
    have hget : ∀ i, i < kept.length → kept[i]?.getD default ∈ kept := by
      intro i hi
      rw [List.getElem?_eq_getElem hi]
      exact List.getElem_mem _
    have hwl : ∀ i, i < kept.length →
        alookup v1.id2word i = some ((kept[i]?.getD default).2.1) := by
      intro i hi
      rw [hi2w]
      have h0 := cleanBuild_i2w_lookup kept 0 i hi
      rw [Nat.zero_add] at h0
      exact h0
    have hcl : ∀ i, i < kept.length →
        alookup v1.word2cnt ((kept[i]?.getD default).2.1) =
          some ((kept[i]?.getD default).2.2) := by
      intro i hi
      rw [hw2c]
      exact cleanBuild_w2c_lookup kept 0 i hnd hi
    have hmin := trimKept_min (List.range v.word_num) kept hk
    have hyp : ∀ i ∈ List.range kept.length, ∃ w c,
        alookup v1.id2word i = some w ∧ alookup v1.word2cnt w = some c ∧
        v1.args.word_min_cnt ≤ c := by
      intro i hi
      have hilt := List.mem_range.mp hi
      exact ⟨_, _, hwl i hilt, hcl i hilt,
        by rw [hargs]; exact hmin _ (hget i hilt)⟩
    have hk2 : trimKept v1 (List.range v1.word_num) = some
        ((List.range kept.length).map
          (fun i => (i, (kept[i]?.getD default).2))) := by
      rw [hwn, trimKept_compute (List.range kept.length) hyp]
      congr 1
      apply List.map_congr_left
      intro i hi
      have hilt := List.mem_range.mp hi
      rw [hwl i hilt]
      simp only [Option.getD_some]
      rw [hcl i hilt]
      simp only [Option.getD_some]
    have hsnd0 : (List.range kept.length).map
        (fun i => kept[i]?.getD default) = kept := map_getD_range kept default
    have hsnd : ((List.range kept.length).map
        (fun i => (i, (kept[i]?.getD default).2))).map (fun t => t.2) =
        kept.map (fun t => t.2) := by
      conv_rhs => rw [← hsnd0]
      rw [List.map_map, List.map_map]
      rfl
    have hnd2 : (((List.range kept.length).map
        (fun i => (i, (kept[i]?.getD default).2))).map
          (fun t => t.2.1)).Nodup := by
      have he1 : ((List.range kept.length).map
          (fun i => (i, (kept[i]?.getD default).2))).map (fun t => t.2.1) =
          kept.map (fun t => t.2.1) := by
        conv_rhs => rw [← hsnd0]
        rw [List.map_map, List.map_map]
        rfl
      rw [he1]
      exact hnd
    have hcb2 : cleanBuild ((List.range kept.length).map
        (fun i => (i, (kept[i]?.getD default).2))) 0 = cleanBuild kept 0 :=
      cleanBuild_map_snd_congr _ _ 0 hsnd
    have hlen2 : ((List.range kept.length).map
        (fun i => (i, (kept[i]?.getD default).2))).length = kept.length := by
      rw [List.length_map, List.length_range]
    have hTB2 : trimBuild ((List.range kept.length).map
        (fun i => (i, (kept[i]?.getD default).2))) =
        ((cleanBuild kept 0).1, (cleanBuild kept 0).2.1,
          (cleanBuild kept 0).2.2, kept.length) := by
      have h0 := trimBuild_go_clean ((List.range kept.length).map
          (fun i => (i, (kept[i]?.getD default).2))) [] [] [] 0 hnd2
        (by intro t ht; simp [dkeys]) (by intro t ht; simp [dkeys])
        (by intro k hk3; simp [dkeys] at hk3)
      rw [hcb2, hlen2] at h0
      simpa [trimBuild] using h0
    have hfst : ((List.range kept.length).map
        (fun i => (i, (kept[i]?.getD default).2))).map (fun t => t.1) =
        List.range kept.length := by
      rw [List.map_map]
      have hcomp : ((fun t : ℕ × String × ℕ => t.1) ∘
          fun i => (i, (kept[i]?.getD default).2)) = fun i => i := rfl
      rw [hcomp, List.map_id']
    have he2 : List.mapM (fun i => v1.embed[i]?)
        (((List.range kept.length).map
          (fun i => (i, (kept[i]?.getD default).2))).map (fun t => t.1)) =
        some emb := by
      rw [hfst, hemb,
        show List.range kept.length = List.range emb.length from by rw [hembl]]
      exact mapM_getElem_range emb
    have hcond2 : (trimBuild ((List.range kept.length).map
          (fun i => (i, (kept[i]?.getD default).2)))).1.length =
        (trimBuild ((List.range kept.length).map
          (fun i => (i, (kept[i]?.getD default).2)))).2.1.length ∧
        (trimBuild ((List.range kept.length).map
          (fun i => (i, (kept[i]?.getD default).2)))).2.1.length =
        (trimBuild ((List.range kept.length).map
          (fun i => (i, (kept[i]?.getD default).2)))).2.2.1.length ∧
        (trimBuild ((List.range kept.length).map
          (fun i => (i, (kept[i]?.getD default).2)))).2.2.1.length =
        emb.length := by
      rw [hTB2]
      exact ⟨hl1, hl2, hl3⟩
    have happ := trim_forward v1 _ emb hk2 he2 hcond2
    have ha : (trimBuild ((List.range kept.length).map
        (fun i => (i, (kept[i]?.getD default).2)))).1 = v1.word2id := by
      rw [hTB2, hw2i]
    have hb : (trimBuild ((List.range kept.length).map
        (fun i => (i, (kept[i]?.getD default).2)))).2.1 = v1.id2word := by
      rw [hTB2, hi2w]
    have hcq : (trimBuild ((List.range kept.length).map
        (fun i => (i, (kept[i]?.getD default).2)))).2.2.1 = v1.word2cnt := by
      rw [hTB2, hw2c]
    have hd : (trimBuild ((List.range kept.length).map
        (fun i => (i, (kept[i]?.getD default).2)))).2.2.2 = v1.word_num := by
      rw [hTB2, hwn]
    have hd2 : (trimBuild ((List.range kept.length).map
        (fun i => (i, (kept[i]?.getD default).2)))).2.2.2 = v1.fixed_num := by
      rw [hTB2, hfn]
    rw [happ]
    have hrec : ({ v1 with
        word2id := (trimBuild ((List.range kept.length).map
          (fun i => (i, (kept[i]?.getD default).2)))).1
        id2word := (trimBuild ((List.range kept.length).map
          (fun i => (i, (kept[i]?.getD default).2)))).2.1
        word2cnt := (trimBuild ((List.range kept.length).map
          (fun i => (i, (kept[i]?.getD default).2)))).2.2.1
        embed := emb
        word_num := (trimBuild ((List.range kept.length).map
          (fun i => (i, (kept[i]?.getD default).2)))).2.2.2
        fixed_num := (trimBuild ((List.range kept.length).map
          (fun i => (i, (kept[i]?.getD default).2)))).2.2.2 } : Vocab) = v1 := by
      nth_rewrite 1 [hd]
      rw [ha, hb, hcq, hd2, ← hemb]
    rw [hrec]
  · intro v v1 hwf hcnt hth h
    obtain ⟨kept, emb, hk, he, hnd, hembl, hw2i, hi2w, hw2c, hemb, hwn, hfn,
      hargs, hl1, hl2, hl3⟩ := trim_success_struct h
    obtain ⟨hinv, h4, hle, hp0, hp1, hp2, hp3⟩ := hwf
    intro w hw
    have hpair : ∃ i, i < 4 ∧ (w, i) ∈ v.word2id := by
      fin_cases hw
      · exact ⟨0, by omega, hp0⟩
      · exact ⟨1, by omega, hp1⟩
      · exact ⟨2, by omega, hp2⟩
      · exact ⟨3, by omega, hp3⟩
    obtain ⟨i, hi4, hpmem⟩ := hpair
    have hidw : (i, w) ∈ v.id2word := hinv.2.2.1 (w, i) hpmem
    have hiw : alookup v.id2word i = some w :=
      alookup_eq_some_of_mem hinv.2.1 hidw
    have hc0 := hcnt w hw
    obtain ⟨c, hc⟩ := Option.isSome_iff_exists.mp hc0.1
    have h10k : 10000 ≤ c := by
      have h1 := hc0.2
      rw [hc] at h1
      simpa using h1
    have hiwn : i < v.word_num := by omega
    have hkmem := trimKept_mem (List.range v.word_num) kept hk i
      (List.mem_range.mpr hiwn) w c hiw hc (le_trans hth h10k)
    rw [hw2i, cleanBuild_w2i_keys]
    exact List.mem_map.mpr ⟨(i, w, c), hkmem, rfl⟩

/-- C5 witness: on the spec-scenario vocabulary (threshold 1) trim succeeds
and returns the state unchanged, so a second trim is the identity on it,
and the reserved PAD token survives. -/
theorem c5_trim_idempotence_and_reserved_witness :
    trim exVocab = some exVocab ∧ "<PAD>" ∈ dkeys exVocab.word2id :=
  ⟨c5_trim_idempotence_and_reserved.1 exVocab exVocab (by decide),
   c5_trim_idempotence_and_reserved.2 exVocab exVocab (by decide) (by decide)
     (by decide) (by decide) "<PAD>" (by decide)⟩

end ReviewSum
